import Mathlib

/-!
Shallow embedding of `scripts/face_cropper.py`: skin-tone masking, binary
morphology, 8-connected component selection, crop-box geometry with square
enforcement, radial alpha feathering, and the `crop_to_face` pipeline.

Conventions of the embedding:
* a boolean H×W numpy mask is a function `ℕ → ℕ → Bool` together with explicit
  dimensions; all operations only ever read positions inside the grid, exactly
  as a numpy array has no out-of-bounds entries;
* python `int` is `ℤ`; quantities that the source keeps non-negative are `ℕ`.
  Python floor division `//` with a positive divisor is `ℤ` division (`Int.ediv`,
  the `/` of this file) or `ℕ` division; python `max(a - b, 0)` on naturals is
  truncated subtraction `a - b : ℕ`;
* `int(face_h * 0.55)` on a positive python float truncates toward zero, which
  for these operand magnitudes equals `⌊face_h * 55 / 100⌋`, i.e. `ℕ` division
  `face_h * 55 / 100` (0.55, 0.25, 0.45 are exact multiples of 1/20, so the
  double rounding error, below 1e-11 for any realistic extent, can never cross
  an integer boundary);
* a function that can `raise` returns `Except String`;
* the float computation of `feathered_alpha` is modelled over `ℝ`.
-/

/-! ### Data model: masks, cells, grids -/

/-- A boolean pixel grid (numpy 2-D bool array); entries outside the grid
extent are never consulted by the operations below. -/
abbrev Mask := ℕ → ℕ → Bool

/-- A pixel coordinate `(row, column)`. -/
abbrev Cell := ℕ × ℕ

/-- All coordinates of an `hh × ww` grid. -/
def gridCells (hh ww : ℕ) : Finset Cell := Finset.range hh ×ˢ Finset.range ww

/-- The set of in-grid coordinates where the mask is true
(`np.where(mask)` as a set). -/
def trueCells (m : Mask) (hh ww : ℕ) : Finset Cell :=
  (gridCells hh ww).filter fun p => m p.1 p.2 = true

/-- `p` is an in-grid true pixel of the mask. -/
def cellTrue (m : Mask) (hh ww : ℕ) (p : Cell) : Prop :=
  p.1 < hh ∧ p.2 < ww ∧ m p.1 p.2 = true

instance (m : Mask) (hh ww : ℕ) (p : Cell) : Decidable (cellTrue m hh ww p) :=
  inferInstanceAs (Decidable (_ ∧ _ ∧ _))

/-! ### Morphology (`_binary_morph` and its wrappers)

`_binary_morph` zero-pads the mask by `kernel // 2` on every side and slides a
`kernel × kernel` window: dilation takes the window maximum (any), erosion the
window minimum (all).  `padVal m hh ww pad i j` is entry `(i, j)` of the padded
array. -/

/-- Entry `(i, j)` of the zero-padded mask
(`np.pad(working, pad, constant_values=0)`). -/
def padVal (m : Mask) (hh ww pad i j : ℕ) : Bool :=
  decide (pad ≤ i) && decide (i < hh + pad) && decide (pad ≤ j) && decide (j < ww + pad)
    && m (i - pad) (j - pad)

/-- One dilation pass with a `k × k` all-ones kernel over the zero-padded grid:
true where any window entry is true. -/
def dilateK (m : Mask) (hh ww k : ℕ) : Mask := fun y x =>
  (List.range k).any fun dy => (List.range k).any fun dx =>
    padVal m hh ww (k / 2) (y + dy) (x + dx)

/-- One erosion pass with a `k × k` all-ones kernel over the zero-padded grid:
true where all window entries are true. -/
def erodeK (m : Mask) (hh ww k : ℕ) : Mask := fun y x =>
  (List.range k).all fun dy => (List.range k).all fun dx =>
    padVal m hh ww (k / 2) (y + dy) (x + dx)

/-- `binary_open`: dilation of the erosion (single pass each). -/
def openK (m : Mask) (hh ww k : ℕ) : Mask := dilateK (erodeK m hh ww k) hh ww k

/-- `binary_close`: erosion of the dilation (single pass each). -/
def closeK (m : Mask) (hh ww k : ℕ) : Mask := erodeK (dilateK m hh ww k) hh ww k

/-- The iteration loop of `_binary_morph`: `iters` passes of dilation
(`dilateMode = true`) or erosion, each pass re-reading the previous output. -/
def morphN (m : Mask) (hh ww k : ℕ) (dilateMode : Bool) : ℕ → Mask
  | 0 => m
  | n + 1 => (if dilateMode then dilateK else erodeK) (morphN m hh ww k dilateMode n) hh ww k

/-- `_binary_morph`: rejects an even kernel before any pixel work
(`raise ValueError("Kernel size must be odd.")`), otherwise runs the passes.
The `bool → uint8 → bool` casts of the source are identities on boolean grids. -/
def binaryMorph (m : Mask) (hh ww k iters : ℕ) (dilateMode : Bool) : Except String Mask :=
  if k % 2 = 0 then Except.error "Kernel size must be odd."
  else Except.ok (morphN m hh ww k dilateMode iters)

/-- `binary_dilate(mask, kernel, iterations)`. -/
def binaryDilate (m : Mask) (hh ww k iters : ℕ) : Except String Mask :=
  binaryMorph m hh ww k iters true

/-- `binary_erode(mask, kernel, iterations)`. -/
def binaryErode (m : Mask) (hh ww k iters : ℕ) : Except String Mask :=
  binaryMorph m hh ww k iters false

/-- `binary_open(mask, kernel) = binary_dilate(binary_erode(mask, kernel), kernel)`. -/
def binaryOpenE (m : Mask) (hh ww k : ℕ) : Except String Mask :=
  match binaryErode m hh ww k 1 with
  | Except.error e => Except.error e
  | Except.ok v => binaryDilate v hh ww k 1

/-- `binary_close(mask, kernel) = binary_erode(binary_dilate(mask, kernel), kernel)`. -/
def binaryCloseE (m : Mask) (hh ww k : ℕ) : Except String Mask :=
  match binaryDilate m hh ww k 1 with
  | Except.error e => Except.error e
  | Except.ok v => binaryErode v hh ww k 1

/-- `refine_mask` as the pure composite it always evaluates to (its kernels 5, 9,
7 are odd, so no pass can fail): open(5), close(9), dilate(7) twice. -/
def refineMask (m : Mask) (hh ww : ℕ) : Mask :=
  dilateK (dilateK (closeK (openK m hh ww 5) hh ww 9) hh ww 7) hh ww 7

/-- `refine_mask` through the fallible wrappers, exactly as the source composes
`binary_open(·, 5)`, `binary_close(·, 9)`, `binary_dilate(·, 7, iterations=2)`. -/
def refineMaskE (m : Mask) (hh ww : ℕ) : Except String Mask :=
  match binaryOpenE m hh ww 5 with
  | Except.error e => Except.error e
  | Except.ok v1 =>
    match binaryCloseE v1 hh ww 9 with
    | Except.error e => Except.error e
    | Except.ok v2 => binaryDilate v2 hh ww 7 2

/-! ### Skin mask (`skin_mask`)

The YCbCr conversion is performed by PIL (an external collaborator); the
embedding therefore carries the converted plane as part of the image data and
`skinPix` is the per-pixel threshold test of `skin_mask`.  The channels are
uint8 values (naturals below 256).  `np.abs(r - g)` on uint8 operands wraps:
for `r, g < 256` the array entry is `(r - g) mod 256 = (r + 256 - g) % 256`,
and `np.abs` of an unsigned value is the identity. -/

/-- Per-pixel test of `skin_mask`, given the PIL-converted `(Y, Cb, Cr)` triple
and the `(R, G, B)` triple of the pixel. -/
def skinPix (ycc rgbv : ℕ × ℕ × ℕ) : Bool :=
  decide (77 ≤ ycc.2.1) && decide (ycc.2.1 ≤ 127) &&
  decide (133 ≤ ycc.2.2) && decide (ycc.2.2 ≤ 173) &&
  decide (60 < ycc.1) &&
  decide (70 < rgbv.1) && decide (40 < rgbv.2.1) && decide (20 < rgbv.2.2) &&
  decide (5 < (rgbv.1 + 256 - rgbv.2.1) % 256)

/-- The per-pixel predicate as the specification states it: the same thresholds
but with the genuine integer absolute difference `|R − G| > 5`. -/
def skinPixSpec (ycc rgbv : ℕ × ℕ × ℕ) : Bool :=
  decide (77 ≤ ycc.2.1) && decide (ycc.2.1 ≤ 127) &&
  decide (133 ≤ ycc.2.2) && decide (ycc.2.2 ≤ 173) &&
  decide (60 < ycc.1) &&
  decide (70 < rgbv.1) && decide (40 < rgbv.2.1) && decide (20 < rgbv.2.2) &&
  decide (5 < max rgbv.1 rgbv.2.1 - min rgbv.1 rgbv.2.1)

/-- An RGB input image: extent, RGB plane, and the PIL-produced YCbCr plane. -/
structure ImageData where
  h : ℕ
  w : ℕ
  rgb : ℕ → ℕ → ℕ × ℕ × ℕ
  ycbcr : ℕ → ℕ → ℕ × ℕ × ℕ

/-- `skin_mask(rgb)` as a boolean grid over the image extent. -/
def skinMask (im : ImageData) : Mask := fun y x =>
  skinPix (im.ycbcr y x) (im.rgb y x)

/-! ### Connected components (`largest_component_mask` / `flood_fill`)

`flood_fill` is a breadth-first search with an explicit queue; the shared
`visited` array is threaded through explicitly.  The 3×3 neighbour scan of the
source (`range(y-1, y+2) × range(x-1, x+2)`, skipping out-of-bounds) is
`nbrs`; it includes the centre cell, which the visited check discards exactly
as in the source. -/

/-- The source's 3×3 window offsets, in scan order. -/
def nbrOffsets : List (ℤ × ℤ) :=
  [(-1, -1), (-1, 0), (-1, 1), (0, -1), (0, 0), (0, 1), (1, -1), (1, 0), (1, 1)]

/-- In-bounds cells of the 3×3 window centred at `p` (centre included). -/
def nbrs (hh ww : ℕ) (p : Cell) : List Cell :=
  nbrOffsets.filterMap fun d =>
    if 0 ≤ (p.1 : ℤ) + d.1 ∧ (p.1 : ℤ) + d.1 < (hh : ℤ) ∧
       0 ≤ (p.2 : ℤ) + d.2 ∧ (p.2 : ℤ) + d.2 < (ww : ℤ) then
      some (((p.1 : ℤ) + d.1).toNat, ((p.2 : ℤ) + d.2).toNat)
    else none

/-- The state of the breadth-first search: visited set, work queue, and the
coordinates collected so far. -/
structure FFState where
  visited : Finset Cell
  queue : List Cell
  coords : List Cell

/-- One iteration of the `while queue:` loop: pop, record, enqueue-and-mark the
unvisited true neighbours.  The window cells are pairwise distinct, so marking
them one by one (as the source does) equals this batch update. -/
def ffStep (m : Mask) (hh ww : ℕ) (s : FFState) : FFState :=
  match s.queue with
  | [] => s
  | p :: rest =>
    let news := (nbrs hh ww p).filter fun q => !decide (q ∈ s.visited) && m q.1 q.2
    ⟨s.visited ∪ news.toFinset, rest ++ news, s.coords ++ [p]⟩

/-- The `while queue:` loop, fuel-bounded.  Each iteration strictly decreases
`queue length + unvisited grid cells`, so fuel `hh * ww + 1` always reaches the
empty queue. -/
def ffRun (m : Mask) (hh ww : ℕ) : ℕ → FFState → FFState
  | 0, s => s
  | n + 1, s =>
    match s.queue with
    | [] => s
    | _ :: _ => ffRun m hh ww n (ffStep m hh ww s)

/-- `flood_fill(mask, visited, start_y, start_x)`: returns the updated visited
set together with the collected coordinates. -/
def floodFill (m : Mask) (hh ww : ℕ) (visited : Finset Cell) (y x : ℕ) :
    Finset Cell × List Cell :=
  let s := ffRun m hh ww (hh * ww + 1) ⟨insert (y, x) visited, [(y, x)], []⟩
  (s.visited, s.coords)

/-- Processing one candidate `x` of a row: flood fill, then keep the longer
coordinate list (`if len(coords) > len(best_coords)`). -/
def lcmStep (m : Mask) (hh ww y : ℕ) (st : Finset Cell × List Cell) (x : ℕ) :
    Finset Cell × List Cell :=
  let r := floodFill m hh ww st.1 y x
  (r.1, if st.2.length < r.2.length then r.2 else st.2)

/-- Processing one row: the candidate columns are taken from the visited state
at the start of the row (`candidates = np.where(row & ~visited[y])`), then each
is flood filled against the evolving visited set. -/
def lcmRow (m : Mask) (hh ww : ℕ) (st : Finset Cell × List Cell) (y : ℕ) :
    Finset Cell × List Cell :=
  ((List.range ww).filter fun x => m y x && !decide ((y, x) ∈ st.1)).foldl
    (lcmStep m hh ww y) st

/-- The scan of `largest_component_mask` over all rows. -/
def lcmFold (m : Mask) (hh ww : ℕ) : Finset Cell × List Cell :=
  (List.range hh).foldl (lcmRow m hh ww) (∅, [])

/-- `largest_component_mask(mask)`: `none` when no true pixel exists, otherwise
the boolean grid holding exactly the winning coordinates. -/
def largestComponentMask (m : Mask) (hh ww : ℕ) : Option Mask :=
  let best := (lcmFold m hh ww).2
  if best = [] then none
  else some fun y x => decide ((y, x) ∈ best)

/-! ### The mathematical notion of 8-connectivity, for specification -/

/-- 8-neighbourhood (or equality): row and column each differ by at most one. -/
def near (p q : Cell) : Prop :=
  p.1 ≤ q.1 + 1 ∧ q.1 ≤ p.1 + 1 ∧ p.2 ≤ q.2 + 1 ∧ q.2 ≤ p.2 + 1

/-- One step between in-grid true pixels that are 8-neighbours. -/
def adjStep (m : Mask) (hh ww : ℕ) (p q : Cell) : Prop :=
  cellTrue m hh ww p ∧ cellTrue m hh ww q ∧ near p q

/-- `p` and `q` lie in the same 8-connected region of the mask. -/
def Conn (m : Mask) (hh ww : ℕ) (p q : Cell) : Prop :=
  cellTrue m hh ww p ∧ Relation.ReflTransGen (adjStep m hh ww) p q

/-- Row-major (top-to-bottom then left-to-right) order on cells, non-strict. -/
def rmLe (p q : Cell) : Prop := p.1 < q.1 ∨ (p.1 = q.1 ∧ p.2 ≤ q.2)

/-- Row-major order on cells, strict. -/
def rmLt (p q : Cell) : Prop := p.1 < q.1 ∨ (p.1 = q.1 ∧ p.2 < q.2)

/-! ### Crop-box geometry (`CropBox`, `compute_crop_box`, `make_square`) -/

/-- The `CropBox` dataclass: integer edges, `bottom` and `right` exclusive. -/
structure CropBox where
  top : ℤ
  bottom : ℤ
  left : ℤ
  right : ℤ
deriving DecidableEq

/-- `CropBox.clamp(h, w)`. -/
def CropBox.clamp (b : CropBox) (hh ww : ℕ) : CropBox :=
  ⟨max b.top 0, min b.bottom (hh : ℤ), max b.left 0, min b.right (ww : ℤ)⟩

/-- `CropBox.height`. -/
def CropBox.height (b : CropBox) : ℤ := b.bottom - b.top

/-- `CropBox.width`. -/
def CropBox.width (b : CropBox) : ℤ := b.right - b.left

/-- The inclusive expanded bounding box computed by the first half of
`compute_crop_box` (all four edges inclusive, as in the source before the
`+ 1` conversion). -/
structure IBox where
  top : ℕ
  bottom : ℕ
  left : ℕ
  right : ℕ
deriving DecidableEq

/-- Lines 256–270 of `compute_crop_box`: bounding box of the true pixels,
asymmetric expansion by `int(face_h*0.55)` up, `int(face_h*0.25)` down and
`int(face_w*0.45)` sideways, each edge clamped to the frame
(`max(·, 0)` is `ℕ` subtraction, `min(·, total - 1)` is `min`). -/
def expandIncl (m : Mask) (hh ww : ℕ) : IBox :=
  let cells := trueCells m hh ww
  let top0 := ((cells.image Prod.fst).min).getD 0
  let bottom0 := ((cells.image Prod.fst).max).getD 0
  let left0 := ((cells.image Prod.snd).min).getD 0
  let right0 := ((cells.image Prod.snd).max).getD 0
  let faceH := bottom0 - top0 + 1
  let faceW := right0 - left0 + 1
  let eTop := faceH * 55 / 100
  let eBottom := faceH * 25 / 100
  let eX := faceW * 45 / 100
  ⟨top0 - eTop, min (bottom0 + eBottom) (hh - 1),
    left0 - eX, min (right0 + eX) (ww - 1)⟩

/-- `make_square(box, total_h, total_w)`: recentre a `side × side` square
(`side = max(height, width)`) on the box centre, translate it back inside the
frame edge by edge in source order, then clamp.  `ℤ` division `/ 2` is python
floor division. -/
def makeSquare (box : CropBox) (totalH totalW : ℕ) : CropBox :=
  let height := box.height
  let width := box.width
  let side := max height width
  let centerY := box.top + height / 2
  let centerX := box.left + width / 2
  let half := side / 2
  let t0 := centerY - half
  let b0 := t0 + side
  let l0 := centerX - half
  let r0 := l0 + side
  let t1 := if t0 < 0 then 0 else t0
  let b1 := if t0 < 0 then b0 - t0 else b0
  let l1 := if l0 < 0 then 0 else l0
  let r1 := if l0 < 0 then r0 - l0 else r0
  let t2 := if (totalH : ℤ) < b1 then t1 - (b1 - totalH) else t1
  let b2 := if (totalH : ℤ) < b1 then (totalH : ℤ) else b1
  let l2 := if (totalW : ℤ) < r1 then l1 - (r1 - totalW) else l1
  let r2 := if (totalW : ℤ) < r1 then (totalW : ℤ) else r1
  ⟨max t2 0, min b2 (totalH : ℤ), max l2 0, min r2 (totalW : ℤ)⟩

/-- `compute_crop_box(component_mask, size)` (with `size = (w, h)` already
unpacked to rows/columns): expand, convert to exclusive edges, square, clamp. -/
def computeCropBox (m : Mask) (hh ww : ℕ) : CropBox :=
  let e := expandIncl m hh ww
  (makeSquare ⟨(e.top : ℤ), ((e.bottom : ℤ) + 1), (e.left : ℤ), ((e.right : ℤ) + 1)⟩
    hh ww).clamp hh ww

/-! ### The pipeline (`crop_to_face`, `fallback_crop`)

The pipeline output is recorded as the source-frame region that is cropped
together with the feather ratio handed to `feathered_alpha`; the RGBA pixels
are determined by these (RGB from the region, alpha from
`feathered_alpha(crop_shape, ratio)` in both branches of the source). -/

/-- The observable result of the pipeline: the cropped source region and the
feather ratio applied to it. -/
structure CropOut where
  box : CropBox
  feather : ℚ
deriving DecidableEq

/-- `fallback_crop(image, feather_ratio)`: centred square of side `min(w, h)`,
lifted by `side // 6`, with `max((h - side) // 2 - side // 6, 0)` rendered by
truncated `ℕ` subtraction. -/
def fallbackCrop (im : ImageData) (ratio : ℚ) : CropOut :=
  let side := min im.w im.h
  let left := (im.w - side) / 2
  let top := (im.h - side) / 2 - side / 6
  ⟨⟨(top : ℤ), ((top + side : ℕ) : ℤ), (left : ℤ), ((left + side : ℕ) : ℤ)⟩, ratio⟩

/-- `crop_to_face(image, feather_ratio, debug_masks)` (the debug export is
external I/O and not part of the result). -/
def cropToFace (im : ImageData) (ratio : ℚ) : Except String CropOut :=
  match refineMaskE (skinMask im) im.h im.w with
  | Except.error e => Except.error e
  | Except.ok refined =>
    match largestComponentMask refined im.h im.w with
    | none => Except.ok (fallbackCrop im ratio)
    | some comp => Except.ok ⟨computeCropBox comp im.h im.w, ratio⟩

/-- Modelled from the spec: `crop_to_face` with the error-handling design's
degenerate-geometry rule made explicit — a crop box that "degenerates to zero
area after clamping" is "treated as no-skin-detected and routed to fallback".
The source has no such branch; this definition exists to compare behaviours. -/
def cropToFaceSpecGuard (im : ImageData) (ratio : ℚ) : Except String CropOut :=
  match refineMaskE (skinMask im) im.h im.w with
  | Except.error e => Except.error e
  | Except.ok refined =>
    match largestComponentMask refined im.h im.w with
    | none => Except.ok (fallbackCrop im ratio)
    | some comp =>
      let b := computeCropBox comp im.h im.w
      if b.bottom - b.top ≤ 0 ∨ b.right - b.left ≤ 0 then
        Except.ok (fallbackCrop im ratio)
      else Except.ok ⟨b, ratio⟩

/-! ### Alpha feathering (`feathered_alpha`), over `ℝ`

The source computes with IEEE doubles; the embedding is the same computation
over `ℝ`.  `alpha * 255` is truncated by `astype(np.uint8)`; the value lies in
`[0, 255]`, so truncation is the floor. -/

/-- `np.clip(x, 0, 1)`. -/
noncomputable def clip01 (a : ℝ) : ℝ := min (max a 0) 1

/-- `np.clip(inner_ratio, 0.0, 0.98)`. -/
noncomputable def innerClip (ratio : ℝ) : ℝ := min (max ratio 0) (98 / 100)

/-- The per-pixel alpha before quantisation: the plateau / transition / zero
branches of `feathered_alpha` (the three index masks are disjoint). -/
noncomputable def alphaVal (rv inner : ℝ) : ℝ :=
  if rv ≤ inner then 1 else if rv < 1 then (1 - rv) / (1 - inner) else 0

/-- The normalised radius `r[y, x]` of `feathered_alpha` for a crop of extent
`hc × wc`: distances to the centre `((hc-1)/2, (wc-1)/2)` scaled by the half
extents. -/
noncomputable def rho (hc wc y x : ℕ) : ℝ :=
  Real.sqrt ((((x : ℝ) - ((wc : ℝ) - 1) / 2) / ((wc : ℝ) / 2)) ^ 2 +
    (((y : ℝ) - ((hc : ℝ) - 1) / 2) / ((hc : ℝ) / 2)) ^ 2)

/-- `feathered_alpha(shape, inner_ratio)` at pixel `(y, x)`: clip the ratio,
build the alpha, clip to `[0, 1]`, scale to 8 bits and truncate. -/
noncomputable def featheredAlpha (hc wc : ℕ) (ratio : ℝ) (y x : ℕ) : ℤ :=
  Int.floor (255 * clip01 (alphaVal (rho hc wc y x) (innerClip ratio)))

/-! ### Invariants used to verify the component search -/

/-- A visited set that is a union of complete components: closed under one
adjacency step. -/
def VClosed (m : Mask) (hh ww : ℕ) (v : Finset Cell) : Prop :=
  ∀ p ∈ v, ∀ q : Cell, adjStep m hh ww p q → q ∈ v

/-- The loop invariant of the breadth-first search of `flood_fill`, relative
to the visited set `v0` at call time and the start cell `s0`. -/
def FFInv (m : Mask) (hh ww : ℕ) (v0 : Finset Cell) (s0 : Cell) (s : FFState) : Prop :=
  s.visited = v0 ∪ s.coords.toFinset ∪ s.queue.toFinset ∧
  s.coords.Nodup ∧ s.queue.Nodup ∧
  (∀ q ∈ s.coords, q ∉ s.queue) ∧
  (∀ q ∈ s.coords, q ∉ v0) ∧ (∀ q ∈ s.queue, q ∉ v0) ∧
  (∀ q ∈ s.coords, Conn m hh ww s0 q) ∧ (∀ q ∈ s.queue, Conn m hh ww s0 q) ∧
  (∀ p ∈ s.coords, ∀ q : Cell, adjStep m hh ww p q → q ∈ s.visited) ∧
  (s0 ∈ s.coords ∨ s0 ∈ s.queue)

/-- The termination potential of the search: every iteration pops one queue
entry and enqueues only fresh in-grid cells, so this strictly decreases. -/
def ffPot (hh ww : ℕ) (s : FFState) : ℕ :=
  s.queue.length + (gridCells hh ww \ s.visited).card

/-- The scan invariant of `largest_component_mask` at row-major position
`pos`: `visited` holds exactly the cells connected to an already-scanned true
pixel, and `best` is empty (no true pixel scanned yet) or enumerates, without
duplicates, the component of a representative `rep` — the row-major first
pixel of the earliest largest component seen so far. -/
def ScanInv (m : Mask) (hh ww : ℕ) (pos : Cell) (st : Finset Cell × List Cell) : Prop :=
  (∀ p : Cell, p ∈ st.1 ↔ ∃ s : Cell, rmLt s pos ∧ cellTrue m hh ww s ∧ Conn m hh ww s p) ∧
  ((st.2 = [] ∧ ∀ s : Cell, rmLt s pos → ¬ cellTrue m hh ww s) ∨
    (∃ rep : Cell, cellTrue m hh ww rep ∧ rmLt rep pos ∧ st.2.Nodup ∧
      (∀ q : Cell, q ∈ st.2 ↔ Conn m hh ww rep q) ∧
      (∀ q : Cell, q ∈ st.2 → rmLe rep q) ∧
      (∀ s : Cell, rmLt s pos → cellTrue m hh ww s →
        ∀ L : List Cell, L.Nodup → (∀ r : Cell, r ∈ L ↔ Conn m hh ww s r) →
          L.length ≤ st.2.length ∧
            (L.length = st.2.length → ∀ r ∈ L, rmLe rep r))))

/-! ## Theorems -/

/-! ### Morphology wrappers evaluate to the pure passes on odd kernels -/

theorem binaryOpenE_ok (m : Mask) (hh ww k : ℕ) (hk : k % 2 = 1) :
    binaryOpenE m hh ww k = Except.ok (openK m hh ww k) := by
  simp [binaryOpenE, binaryErode, binaryDilate, binaryMorph, hk, morphN, openK]

theorem binaryCloseE_ok (m : Mask) (hh ww k : ℕ) (hk : k % 2 = 1) :
    binaryCloseE m hh ww k = Except.ok (closeK m hh ww k) := by
  simp [binaryCloseE, binaryErode, binaryDilate, binaryMorph, hk, morphN, closeK]

theorem refineMaskE_eq (m : Mask) (hh ww : ℕ) :
    refineMaskE m hh ww = Except.ok (refineMask m hh ww) := by
  simp [refineMaskE, binaryOpenE_ok, binaryCloseE_ok, binaryDilate, binaryMorph,
    morphN, refineMask]

/-! ### Erosion and dilation pointwise characterisations -/

theorem dilateK_eq_true (m : Mask) (hh ww k y x : ℕ) :
    dilateK m hh ww k y x = true ↔
      ∃ dy < k, ∃ dx < k, padVal m hh ww (k / 2) (y + dy) (x + dx) = true := by
  simp [dilateK, List.any_eq_true, List.mem_range]

theorem erodeK_eq_true (m : Mask) (hh ww k y x : ℕ) :
    erodeK m hh ww k y x = true ↔
      ∀ dy < k, ∀ dx < k, padVal m hh ww (k / 2) (y + dy) (x + dx) = true := by
  simp [erodeK, List.all_eq_true, List.mem_range]

theorem padVal_eq_true (m : Mask) (hh ww pad i j : ℕ) :
    padVal m hh ww pad i j = true ↔
      pad ≤ i ∧ i < hh + pad ∧ pad ≤ j ∧ j < ww + pad ∧ m (i - pad) (j - pad) = true := by
  simp [padVal, Bool.and_eq_true, decide_eq_true_eq, and_assoc]

/-- Opening removes pixels only: with an odd kernel, every pixel surviving
`binary_open` was already true. -/
theorem openK_subset (m : Mask) (hh ww k y x : ℕ) (hk : k % 2 = 1)
    (h : openK m hh ww k y x = true) : m y x = true := by
  rw [openK, dilateK_eq_true] at h
  obtain ⟨dy, hdy, dx, hdx, hpad⟩ := h
  rw [padVal_eq_true] at hpad
  obtain ⟨h1, h2, h3, h4, hero⟩ := hpad
  rw [erodeK_eq_true] at hero
  have hdy2 : 2 * (k / 2) - dy < k := by omega
  have hdx2 : 2 * (k / 2) - dx < k := by omega
  have h5 := hero (2 * (k / 2) - dy) hdy2 (2 * (k / 2) - dx) hdx2
  rw [padVal_eq_true] at h5
  have e1 : y + dy - k / 2 + (2 * (k / 2) - dy) = y + k / 2 := by omega
  have e2 : x + dx - k / 2 + (2 * (k / 2) - dx) = x + k / 2 := by omega
  rw [e1, e2] at h5
  have e3 : y + k / 2 - k / 2 = y := by omega
  have e4 : x + k / 2 - k / 2 = x := by omega
  rw [e3, e4] at h5
  exact h5.2.2.2.2

/-- Closing keeps every true pixel that is at least the kernel radius away
from all four borders. -/
theorem closeK_superset_interior (m : Mask) (hh ww k y x : ℕ) (hk : k % 2 = 1)
    (hm : m y x = true) (hy1 : k / 2 ≤ y) (hy2 : y + k / 2 < hh)
    (hx1 : k / 2 ≤ x) (hx2 : x + k / 2 < ww) :
    closeK m hh ww k y x = true := by
  rw [closeK, erodeK_eq_true]
  intro dy hdy dx hdx
  rw [padVal_eq_true]
  refine ⟨by omega, by omega, by omega, by omega, ?_⟩
  rw [dilateK_eq_true]
  refine ⟨2 * (k / 2) - dy, by omega, 2 * (k / 2) - dx, by omega, ?_⟩
  rw [padVal_eq_true]
  have e1 : y + dy - k / 2 + (2 * (k / 2) - dy) = y + k / 2 := by omega
  have e2 : x + dx - k / 2 + (2 * (k / 2) - dx) = x + k / 2 := by omega
  rw [e1, e2]
  refine ⟨by omega, by omega, by omega, by omega, ?_⟩
  have e3 : y + k / 2 - k / 2 = y := by omega
  have e4 : x + k / 2 - k / 2 = x := by omega
  rw [e3, e4]; exact hm

/-! ### Claim C2 -/

/-- Claim C2, counterexample: the inclusion `mask ⊆ Close(mask)` fails on the
pipeline's kernel 9 because of the zero padding — on a 1×1 all-true mask the
single true pixel is erased by `binary_close`. -/
theorem close_not_superset_cex :
    (fun _ _ => true : Mask) 0 0 = true ∧
    binaryCloseE (fun _ _ => true) 1 1 9 = Except.ok (closeK (fun _ _ => true) 1 1 9) ∧
    closeK (fun _ _ => true) 1 1 9 0 0 = false :=
  ⟨rfl, binaryCloseE_ok _ 1 1 9 rfl, by decide⟩

/-- Claim C2 (amended): with the pipeline's fixed kernels, `Open(mask) ⊆ mask`
holds for every pixel, and `mask ⊆ Close(mask)` holds for every pixel at
distance at least 4 (the kernel-9 radius) from each border; the zero padding
makes closing erase true pixels nearer to the border. -/
theorem open_close_sandwich (m : Mask) (hh ww : ℕ) :
    (∀ o, binaryOpenE m hh ww 5 = Except.ok o → ∀ y x, o y x = true → m y x = true) ∧
    (∀ c, binaryCloseE m hh ww 9 = Except.ok c → ∀ y x, m y x = true →
      4 ≤ y → y + 4 < hh → 4 ≤ x → x + 4 < ww → c y x = true) := by
  constructor
  · intro o ho y x hyx
    rw [binaryOpenE_ok m hh ww 5 rfl] at ho
    injection ho with ho
    exact openK_subset m hh ww 5 y x rfl (ho ▸ hyx)
  · intro c hc y x hm h1 h2 h3 h4
    rw [binaryCloseE_ok m hh ww 9 rfl] at hc
    injection hc with hc
    subst hc
    exact closeK_superset_interior m hh ww 9 y x rfl hm h1 h2 h3 h4

theorem open_close_sandwich_witness :
    (fun _ _ => true : Mask) 4 4 = true ∧ closeK (fun _ _ => true) 9 9 9 4 4 = true := by
  constructor
  · exact (open_close_sandwich (fun _ _ => true) 9 9).1 (openK (fun _ _ => true) 9 9 5)
      (binaryOpenE_ok _ 9 9 5 rfl) 4 4 (by decide)
  · exact (open_close_sandwich (fun _ _ => true) 9 9).2 (closeK (fun _ _ => true) 9 9 9)
      (binaryCloseE_ok _ 9 9 9 rfl) 4 4 rfl (by decide) (by decide) (by decide) (by decide)

/-! ### Claim C3 -/

/-- Claim C3 (code bug): `skin_mask` does not implement `|R − G| > 5`.  The
subtraction `r - g` happens in uint8 and wraps, and `np.abs` on the wrapped
unsigned value is the identity, so a pixel with G slightly above R passes the
guard.  At RGB (100, 103, 21) (whose PIL YCbCr conversion is in-range,
approximately (92, 87, 133)) the code marks the pixel as skin although
`|R − G| = 3 ≤ 5`, i.e. the specification's predicate rejects it. -/
theorem skin_mask_abs_diff_bug :
    skinMask ⟨1, 1, fun _ _ => (100, 103, 21), fun _ _ => (92, 87, 133)⟩ 0 0 = true ∧
    skinPixSpec (92, 87, 133) (100, 103, 21) = false := by
  constructor
  · decide
  · decide

/-! ### Claim C8 -/

/-- Claim C8: for every even kernel size, any mask and any iteration count,
`binary_dilate` and `binary_erode` fail fast with the kernel-parity error;
the `Except.error` result carries no mask, so no partial output exists. -/
theorem binary_morph_even_kernel_fails (m : Mask) (hh ww k iters : ℕ) (hk : k % 2 = 0) :
    binaryDilate m hh ww k iters = Except.error "Kernel size must be odd." ∧
    binaryErode m hh ww k iters = Except.error "Kernel size must be odd." := by
  constructor <;> simp [binaryDilate, binaryErode, binaryMorph, hk]

theorem binary_morph_even_kernel_fails_witness :
    4 % 2 = 0 ∧
    (binaryDilate (fun _ _ => false) 2 2 4 1 = Except.error "Kernel size must be odd." ∧
     binaryErode (fun _ _ => false) 2 2 4 1 = Except.error "Kernel size must be odd.") :=
  ⟨rfl, binary_morph_even_kernel_fails (fun _ _ => false) 2 2 4 1 rfl⟩

/-! ### Claim C10 -/

/-- Claim C10: with an odd kernel, `binary_dilate` and `binary_erode` with
`iterations = 0` return the input mask unchanged (the `bool → uint8 → bool`
round trip of the source is the identity). -/
theorem binary_morph_zero_iterations (m : Mask) (hh ww k : ℕ) (hk : k % 2 = 1) :
    binaryDilate m hh ww k 0 = Except.ok m ∧ binaryErode m hh ww k 0 = Except.ok m := by
  constructor <;> simp [binaryDilate, binaryErode, binaryMorph, hk, morphN]

theorem binary_morph_zero_iterations_witness :
    3 % 2 = 1 ∧
    (binaryDilate (fun y x => decide (y = x)) 4 4 3 0 = Except.ok (fun y x => decide (y = x)) ∧
     binaryErode (fun y x => decide (y = x)) 4 4 3 0 = Except.ok (fun y x => decide (y = x))) :=
  ⟨rfl, binary_morph_zero_iterations (fun y x => decide (y = x)) 4 4 3 rfl⟩

/-! ### Bounding box and crop-box geometry -/

theorem mem_trueCells (m : Mask) (hh ww : ℕ) (p : Cell) :
    p ∈ trueCells m hh ww ↔ cellTrue m hh ww p := by
  simp [trueCells, gridCells, Finset.mem_filter, Finset.mem_product, Finset.mem_range,
    cellTrue, and_assoc]

theorem finsetMin_getD {s : Finset ℕ} {a : ℕ} (ha : a ∈ s) (hmin : ∀ b ∈ s, a ≤ b) :
    (s.min).getD 0 = a := by
  have hne : s.Nonempty := ⟨a, ha⟩
  have h1 : s.min = ↑(s.min' hne) := (Finset.coe_min' hne).symm
  have h2 : s.min' hne = a :=
    le_antisymm (Finset.min'_le s a ha) (Finset.le_min' s hne a hmin)
  rw [h1, h2]; rfl

theorem finsetMax_getD {s : Finset ℕ} {a : ℕ} (ha : a ∈ s) (hmax : ∀ b ∈ s, b ≤ a) :
    (s.max).getD 0 = a := by
  have hne : s.Nonempty := ⟨a, ha⟩
  have h1 : s.max = ↑(s.max' hne) := (Finset.coe_max' hne).symm
  have h2 : s.max' hne = a :=
    le_antisymm (Finset.max'_le s hne a hmax) (Finset.le_max' s a ha)
  rw [h1, h2]; rfl

/-- The expansion half of `compute_crop_box`, characterised against the
bounding box of the true pixels. -/
theorem expandIncl_eq (m : Mask) (hh ww top0 bottom0 left0 right0 : ℕ)
    (hb : ∀ y < hh, ∀ x < ww, m y x = true →
      top0 ≤ y ∧ y ≤ bottom0 ∧ left0 ≤ x ∧ x ≤ right0)
    (ht : ∃ p : Cell, cellTrue m hh ww p ∧ p.1 = top0)
    (hbo : ∃ p : Cell, cellTrue m hh ww p ∧ p.1 = bottom0)
    (hl : ∃ p : Cell, cellTrue m hh ww p ∧ p.2 = left0)
    (hr : ∃ p : Cell, cellTrue m hh ww p ∧ p.2 = right0) :
    expandIncl m hh ww =
      ⟨top0 - (bottom0 - top0 + 1) * 55 / 100,
       min (bottom0 + (bottom0 - top0 + 1) * 25 / 100) (hh - 1),
       left0 - (right0 - left0 + 1) * 45 / 100,
       min (right0 + (right0 - left0 + 1) * 45 / 100) (ww - 1)⟩ := by
  have e1 : (((trueCells m hh ww).image Prod.fst).min).getD 0 = top0 := by
    apply finsetMin_getD
    · obtain ⟨p, hp, hpe⟩ := ht
      exact Finset.mem_image.mpr ⟨p, (mem_trueCells m hh ww p).mpr hp, hpe⟩
    · intro b hbm
      obtain ⟨p, hp, hpe⟩ := Finset.mem_image.mp hbm
      obtain ⟨hp1, hp2, hp3⟩ := (mem_trueCells m hh ww p).mp hp
      exact hpe ▸ (hb p.1 hp1 p.2 hp2 hp3).1
  have e2 : (((trueCells m hh ww).image Prod.fst).max).getD 0 = bottom0 := by
    apply finsetMax_getD
    · obtain ⟨p, hp, hpe⟩ := hbo
      exact Finset.mem_image.mpr ⟨p, (mem_trueCells m hh ww p).mpr hp, hpe⟩
    · intro b hbm
      obtain ⟨p, hp, hpe⟩ := Finset.mem_image.mp hbm
      obtain ⟨hp1, hp2, hp3⟩ := (mem_trueCells m hh ww p).mp hp
      exact hpe ▸ (hb p.1 hp1 p.2 hp2 hp3).2.1
  have e3 : (((trueCells m hh ww).image Prod.snd).min).getD 0 = left0 := by
    apply finsetMin_getD
    · obtain ⟨p, hp, hpe⟩ := hl
      exact Finset.mem_image.mpr ⟨p, (mem_trueCells m hh ww p).mpr hp, hpe⟩
    · intro b hbm
      obtain ⟨p, hp, hpe⟩ := Finset.mem_image.mp hbm
      obtain ⟨hp1, hp2, hp3⟩ := (mem_trueCells m hh ww p).mp hp
      exact hpe ▸ (hb p.1 hp1 p.2 hp2 hp3).2.2.1
  have e4 : (((trueCells m hh ww).image Prod.snd).max).getD 0 = right0 := by
    apply finsetMax_getD
    · obtain ⟨p, hp, hpe⟩ := hr
      exact Finset.mem_image.mpr ⟨p, (mem_trueCells m hh ww p).mpr hp, hpe⟩
    · intro b hbm
      obtain ⟨p, hp, hpe⟩ := Finset.mem_image.mp hbm
      obtain ⟨hp1, hp2, hp3⟩ := (mem_trueCells m hh ww p).mp hp
      exact hpe ▸ (hb p.1 hp1 p.2 hp2 hp3).2.2.2
  simp only [expandIncl]
  rw [e1, e2, e3, e4]

/-- The translate-then-clamp analysis of `make_square`: for a well-formed
non-degenerate input box the result stays in the frame and its height and
width are the desired side, clamped to the respective frame extent. -/
theorem makeSquare_spec (box : CropBox) (hh ww : ℕ)
    (h1 : 0 ≤ box.top) (h2 : box.top < box.bottom) (h3 : box.bottom ≤ (hh : ℤ))
    (h4 : 0 ≤ box.left) (h5 : box.left < box.right) (h6 : box.right ≤ (ww : ℤ)) :
    0 ≤ (makeSquare box hh ww).top ∧ (makeSquare box hh ww).bottom ≤ (hh : ℤ) ∧
    0 ≤ (makeSquare box hh ww).left ∧ (makeSquare box hh ww).right ≤ (ww : ℤ) ∧
    (makeSquare box hh ww).bottom - (makeSquare box hh ww).top
      = min (max (box.bottom - box.top) (box.right - box.left)) (hh : ℤ) ∧
    (makeSquare box hh ww).right - (makeSquare box hh ww).left
      = min (max (box.bottom - box.top) (box.right - box.left)) (ww : ℤ) := by
  obtain ⟨t, b, l, r⟩ := box
  dsimp only [makeSquare, CropBox.height, CropBox.width] at *
  split_ifs <;> omega


/-- Well-formedness of the final crop box on any non-empty component mask:
contained in the frame, non-degenerate, with height `min side H` and width
`min side W` for the square side `side = max(height, width)` of the expanded
box. -/
theorem computeCropBox_wf (m : Mask) (hh ww : ℕ) (hne : (trueCells m hh ww).Nonempty) :
    0 ≤ (computeCropBox m hh ww).top ∧
    (computeCropBox m hh ww).top < (computeCropBox m hh ww).bottom ∧
    (computeCropBox m hh ww).bottom ≤ (hh : ℤ) ∧
    0 ≤ (computeCropBox m hh ww).left ∧
    (computeCropBox m hh ww).left < (computeCropBox m hh ww).right ∧
    (computeCropBox m hh ww).right ≤ (ww : ℤ) ∧
    (computeCropBox m hh ww).bottom - (computeCropBox m hh ww).top
      = min (max (((expandIncl m hh ww).bottom : ℤ) + 1 - ((expandIncl m hh ww).top : ℤ))
          (((expandIncl m hh ww).right : ℤ) + 1 - ((expandIncl m hh ww).left : ℤ))) (hh : ℤ) ∧
    (computeCropBox m hh ww).right - (computeCropBox m hh ww).left
      = min (max (((expandIncl m hh ww).bottom : ℤ) + 1 - ((expandIncl m hh ww).top : ℤ))
          (((expandIncl m hh ww).right : ℤ) + 1 - ((expandIncl m hh ww).left : ℤ))) (ww : ℤ) := by
  -- bounding-box values and their characterisation
  have hTne : ((trueCells m hh ww).image Prod.fst).Nonempty := hne.image _
  have hSne : ((trueCells m hh ww).image Prod.snd).Nonempty := hne.image _
  set a := ((trueCells m hh ww).image Prod.fst).min' hTne with ha
  set b := ((trueCells m hh ww).image Prod.fst).max' hTne with hbv
  set c := ((trueCells m hh ww).image Prod.snd).min' hSne with hc
  set d := ((trueCells m hh ww).image Prod.snd).max' hSne with hd
  have hbnd : ∀ y < hh, ∀ x < ww, m y x = true → a ≤ y ∧ y ≤ b ∧ c ≤ x ∧ x ≤ d := by
    intro y hy x hx hm
    have hmem : ((y, x) : Cell) ∈ trueCells m hh ww :=
      (mem_trueCells m hh ww (y, x)).mpr ⟨hy, hx, hm⟩
    refine ⟨Finset.min'_le _ _ ?_, Finset.le_max' _ _ ?_,
      Finset.min'_le _ _ ?_, Finset.le_max' _ _ ?_⟩ <;>
      exact Finset.mem_image.mpr ⟨(y, x), hmem, rfl⟩
  have hta : ∃ p : Cell, cellTrue m hh ww p ∧ p.1 = a := by
    obtain ⟨p, hp, hpe⟩ := Finset.mem_image.mp (Finset.min'_mem _ hTne)
    exact ⟨p, (mem_trueCells m hh ww p).mp hp, hpe⟩
  have htb : ∃ p : Cell, cellTrue m hh ww p ∧ p.1 = b := by
    obtain ⟨p, hp, hpe⟩ := Finset.mem_image.mp (Finset.max'_mem _ hTne)
    exact ⟨p, (mem_trueCells m hh ww p).mp hp, hpe⟩
  have htc : ∃ p : Cell, cellTrue m hh ww p ∧ p.2 = c := by
    obtain ⟨p, hp, hpe⟩ := Finset.mem_image.mp (Finset.min'_mem _ hSne)
    exact ⟨p, (mem_trueCells m hh ww p).mp hp, hpe⟩
  have htd : ∃ p : Cell, cellTrue m hh ww p ∧ p.2 = d := by
    obtain ⟨p, hp, hpe⟩ := Finset.mem_image.mp (Finset.max'_mem _ hSne)
    exact ⟨p, (mem_trueCells m hh ww p).mp hp, hpe⟩
  have hE := expandIncl_eq m hh ww a b c d hbnd hta htb htc htd
  -- basic inequalities on the bounding box
  have hab : a ≤ b := by
    obtain ⟨p, hp, hpe⟩ := htb
    exact hpe ▸ (hbnd p.1 hp.1 p.2 hp.2.1 hp.2.2).1
  have hbh : b < hh := by
    obtain ⟨p, hp, hpe⟩ := htb; exact hpe ▸ hp.1
  have hcd : c ≤ d := by
    obtain ⟨p, hp, hpe⟩ := htd
    exact hpe ▸ (hbnd p.1 hp.1 p.2 hp.2.1 hp.2.2).2.2.1
  have hdw : d < ww := by
    obtain ⟨p, hp, hpe⟩ := htd; exact hpe ▸ hp.2.1
  dsimp only [computeCropBox, CropBox.clamp]
  rw [hE]
  dsimp only
  have hn1 : a - (b - a + 1) * 55 / 100 ≤ a := by omega
  have hn2 : a ≤ min (b + (b - a + 1) * 25 / 100) (hh - 1) := by omega
  have hn3 : min (b + (b - a + 1) * 25 / 100) (hh - 1) ≤ hh - 1 := by omega
  have hn5 : c - (d - c + 1) * 45 / 100 ≤ c := by omega
  have hn6 : c ≤ min (d + (d - c + 1) * 45 / 100) (ww - 1) := by omega
  have hn7 : min (d + (d - c + 1) * 45 / 100) (ww - 1) ≤ ww - 1 := by omega
  have hn4 : 1 ≤ hh := by omega
  have hn8 : 1 ≤ ww := by omega
  revert hn1 hn2 hn3 hn5 hn6 hn7
  generalize (a - (b - a + 1) * 55 / 100 : ℕ) = T1
  generalize (min (b + (b - a + 1) * 25 / 100) (hh - 1) : ℕ) = B1
  generalize (c - (d - c + 1) * 45 / 100 : ℕ) = L1
  generalize (min (d + (d - c + 1) * 45 / 100) (ww - 1) : ℕ) = R1
  intro hn1 hn2 hn3 hn5 hn6 hn7
  have hms := makeSquare_spec ⟨(T1 : ℤ), (B1 : ℤ) + 1, (L1 : ℤ), (R1 : ℤ) + 1⟩ hh ww
    (show (0 : ℤ) ≤ (T1 : ℤ) by omega)
    (show (T1 : ℤ) < (B1 : ℤ) + 1 by omega)
    (show (B1 : ℤ) + 1 ≤ (hh : ℤ) by omega)
    (show (0 : ℤ) ≤ (L1 : ℤ) by omega)
    (show (L1 : ℤ) < (R1 : ℤ) + 1 by omega)
    (show (R1 : ℤ) + 1 ≤ (ww : ℤ) by omega)
  dsimp only at hms
  omega

/-! ### Claim C1 -/

/-- Claim C1, counterexample: on a 1×3 frame whose mask is all true, the
returned box is the whole frame, 1 pixel high and 3 wide — containment holds
but the height does not equal the width, because the desired square side 3
exceeds the frame height. -/
theorem compute_crop_box_not_square_cex :
    (trueCells (fun _ _ => true) 1 3).Nonempty ∧
    computeCropBox (fun _ _ => true) 1 3 = ⟨0, 1, 0, 3⟩ ∧
    ((1 : ℤ) - 0 ≠ 3 - 0) := by
  refine ⟨⟨(0, 0), by decide⟩, by decide, by decide⟩

/-- Claim C1 (amended): for every non-empty selected region mask the crop box
is non-degenerate and fully contained in the frame
(`0 ≤ top < bottom ≤ H`, `0 ≤ left < right ≤ W`); its height is `min side H`
and its width `min side W`, for `side` the larger dimension of the expanded
box — so height and width are equal whenever that square side fits the frame,
but not in general. -/
theorem compute_crop_box_square_invariant (m : Mask) (hh ww : ℕ)
    (hne : (trueCells m hh ww).Nonempty) :
    0 ≤ (computeCropBox m hh ww).top ∧
    (computeCropBox m hh ww).top < (computeCropBox m hh ww).bottom ∧
    (computeCropBox m hh ww).bottom ≤ (hh : ℤ) ∧
    0 ≤ (computeCropBox m hh ww).left ∧
    (computeCropBox m hh ww).left < (computeCropBox m hh ww).right ∧
    (computeCropBox m hh ww).right ≤ (ww : ℤ) ∧
    ((max (((expandIncl m hh ww).bottom : ℤ) + 1 - ((expandIncl m hh ww).top : ℤ))
        (((expandIncl m hh ww).right : ℤ) + 1 - ((expandIncl m hh ww).left : ℤ))
          ≤ min (hh : ℤ) (ww : ℤ)) →
      (computeCropBox m hh ww).bottom - (computeCropBox m hh ww).top
        = (computeCropBox m hh ww).right - (computeCropBox m hh ww).left) := by
  have h := computeCropBox_wf m hh ww hne
  exact ⟨h.1, h.2.1, h.2.2.1, h.2.2.2.1, h.2.2.2.2.1, h.2.2.2.2.2.1, by
    intro hside
    rw [h.2.2.2.2.2.2.1, h.2.2.2.2.2.2.2]
    omega⟩

theorem compute_crop_box_square_invariant_witness :
    (trueCells (fun _ _ => true) 4 4).Nonempty ∧
    (0 ≤ (computeCropBox (fun _ _ => true) 4 4).top ∧
     (computeCropBox (fun _ _ => true) 4 4).top < (computeCropBox (fun _ _ => true) 4 4).bottom ∧
     (computeCropBox (fun _ _ => true) 4 4).bottom ≤ (4 : ℤ) ∧
     0 ≤ (computeCropBox (fun _ _ => true) 4 4).left ∧
     (computeCropBox (fun _ _ => true) 4 4).left < (computeCropBox (fun _ _ => true) 4 4).right ∧
     (computeCropBox (fun _ _ => true) 4 4).right ≤ (4 : ℤ) ∧
     ((max (((expandIncl (fun _ _ => true) 4 4).bottom : ℤ) + 1
            - ((expandIncl (fun _ _ => true) 4 4).top : ℤ))
         (((expandIncl (fun _ _ => true) 4 4).right : ℤ) + 1
            - ((expandIncl (fun _ _ => true) 4 4).left : ℤ)) ≤ min (4 : ℤ) (4 : ℤ)) →
       (computeCropBox (fun _ _ => true) 4 4).bottom - (computeCropBox (fun _ _ => true) 4 4).top
         = (computeCropBox (fun _ _ => true) 4 4).right
           - (computeCropBox (fun _ _ => true) 4 4).left)) :=
  ⟨⟨(0, 0), by decide⟩,
    compute_crop_box_square_invariant (fun _ _ => true) 4 4 ⟨(0, 0), by decide⟩⟩

/-! ### Claim C6 -/

/-- Claim C6: given the bounding box `[top0, bottom0] × [left0, right0]` of a
non-empty region, the pre-square expanded box of `compute_crop_box` moves the
top edge up by `int(0.55 * face_h)`, the bottom edge down by
`int(0.25 * face_h)` and each side edge out by `int(0.45 * face_w)`, with
`face_h = bottom0 - top0 + 1`, `face_w = right0 - left0 + 1`, each edge
clamped to `[0, frame_extent)`. -/
theorem compute_crop_box_expansion (m : Mask) (hh ww top0 bottom0 left0 right0 : ℕ)
    (hb : ∀ y < hh, ∀ x < ww, m y x = true →
      top0 ≤ y ∧ y ≤ bottom0 ∧ left0 ≤ x ∧ x ≤ right0)
    (ht : ∃ p : Cell, cellTrue m hh ww p ∧ p.1 = top0)
    (hbo : ∃ p : Cell, cellTrue m hh ww p ∧ p.1 = bottom0)
    (hl : ∃ p : Cell, cellTrue m hh ww p ∧ p.2 = left0)
    (hr : ∃ p : Cell, cellTrue m hh ww p ∧ p.2 = right0) :
    expandIncl m hh ww =
      ⟨top0 - (bottom0 - top0 + 1) * 55 / 100,
       min (bottom0 + (bottom0 - top0 + 1) * 25 / 100) (hh - 1),
       left0 - (right0 - left0 + 1) * 45 / 100,
       min (right0 + (right0 - left0 + 1) * 45 / 100) (ww - 1)⟩ :=
  expandIncl_eq m hh ww top0 bottom0 left0 right0 hb ht hbo hl hr

theorem compute_crop_box_expansion_witness :
    (∀ y < 40, ∀ x < 50, (fun yy xx => decide (10 ≤ yy ∧ yy ≤ 29 ∧ 20 ≤ xx ∧ xx ≤ 29) : Mask) y x
        = true → 10 ≤ y ∧ y ≤ 29 ∧ 20 ≤ x ∧ x ≤ 29) ∧
    expandIncl (fun yy xx => decide (10 ≤ yy ∧ yy ≤ 29 ∧ 20 ≤ xx ∧ xx ≤ 29)) 40 50 =
      ⟨10 - (29 - 10 + 1) * 55 / 100, min (29 + (29 - 10 + 1) * 25 / 100) (40 - 1),
       20 - (29 - 20 + 1) * 45 / 100, min (29 + (29 - 20 + 1) * 45 / 100) (50 - 1)⟩ :=
  ⟨by decide,
    compute_crop_box_expansion (fun yy xx => decide (10 ≤ yy ∧ yy ≤ 29 ∧ 20 ≤ xx ∧ xx ≤ 29))
      40 50 10 29 20 29 (by decide)
      ⟨(10, 20), by decide, rfl⟩ ⟨(29, 20), by decide, rfl⟩
      ⟨(10, 20), by decide, rfl⟩ ⟨(10, 29), by decide, rfl⟩⟩

/-! ### All-false masks propagate through the pipeline -/

theorem padVal_false (m : Mask) (hh ww pad i j : ℕ)
    (hm : ∀ y < hh, ∀ x < ww, m y x = false) : padVal m hh ww pad i j = false := by
  rw [← Bool.not_eq_true, padVal_eq_true]
  rintro ⟨h1, h2, h3, h4, h5⟩
  rw [hm _ (by omega) _ (by omega)] at h5
  exact Bool.false_ne_true h5

theorem dilateK_false (m : Mask) (hh ww k : ℕ)
    (hm : ∀ y < hh, ∀ x < ww, m y x = false) : ∀ y x, dilateK m hh ww k y x = false := by
  intro y x
  rw [← Bool.not_eq_true, dilateK_eq_true]
  rintro ⟨dy, _, dx, _, h⟩
  rw [padVal_false m hh ww _ _ _ hm] at h
  exact Bool.false_ne_true h

theorem erodeK_false (m : Mask) (hh ww k : ℕ) (hk : 0 < k)
    (hm : ∀ y < hh, ∀ x < ww, m y x = false) : ∀ y x, erodeK m hh ww k y x = false := by
  intro y x
  rw [← Bool.not_eq_true, erodeK_eq_true]
  intro hall
  have h := hall 0 hk 0 hk
  rw [padVal_false m hh ww _ _ _ hm] at h
  exact Bool.false_ne_true h

theorem refineMask_false (m : Mask) (hh ww : ℕ)
    (hm : ∀ y < hh, ∀ x < ww, m y x = false) :
    ∀ y x, refineMask m hh ww y x = false := by
  have h1 := erodeK_false m hh ww 5 (by norm_num) hm
  have h2 := dilateK_false _ hh ww 5 (fun y _ x _ => h1 y x)
  have h3 := dilateK_false _ hh ww 9 (fun y _ x _ => h2 y x)
  have h4 := erodeK_false _ hh ww 9 (by norm_num) (fun y _ x _ => h3 y x)
  have h5 := dilateK_false _ hh ww 7 (fun y _ x _ => h4 y x)
  have h6 := dilateK_false _ hh ww 7 (fun y _ x _ => h5 y x)
  intro y x
  exact h6 y x

theorem foldl_const {α β : Type} (f : β → α → β) (init : β) (l : List α)
    (hf : ∀ s a, a ∈ l → f s a = s) : l.foldl f init = init := by
  induction l generalizing init with
  | nil => rfl
  | cons a l ih =>
    rw [List.foldl_cons, hf init a (List.mem_cons_self a l)]
    exact ih init fun s b hb => hf s b (List.mem_cons_of_mem a hb)

theorem lcm_allFalse (m : Mask) (hh ww : ℕ)
    (hm : ∀ y < hh, ∀ x < ww, m y x = false) :
    largestComponentMask m hh ww = none := by
  have h1 : lcmFold m hh ww = (∅, []) := by
    unfold lcmFold
    apply foldl_const
    intro st y hy
    unfold lcmRow
    have hfil : ((List.range ww).filter fun x => m y x && !decide ((y, x) ∈ st.1)) = [] := by
      rw [List.filter_eq_nil_iff]
      intro x hx
      rw [hm y (List.mem_range.mp hy) x (List.mem_range.mp hx)]
      simp
    rw [hfil]
    rfl
  simp [largestComponentMask, h1]

/-- The all-false-refined-mask branch of `crop_to_face`: no exception, and the
result is the fallback crop. -/
theorem cropToFace_of_refinedFalse (im : ImageData) (ratio : ℚ)
    (hall : ∀ y < im.h, ∀ x < im.w, refineMask (skinMask im) im.h im.w y x = false) :
    cropToFace im ratio = Except.ok (fallbackCrop im ratio) := by
  simp [cropToFace, refineMaskE_eq, lcm_allFalse _ _ _ hall]

/-! ### Claim C5 -/

/-- Claim C5, counterexample: on a uniformly black 7×6 image the refined skin
mask is entirely false and the fallback crop is returned with no exception,
but the top edge of the returned square is 0, not the claimed vertically
centred position lifted by a sixth of the side, which here is
`(7 - 6) // 2 - 6 // 6 = -1`: the source clamps the top edge at 0. -/
theorem crop_to_face_fallback_cex :
    cropToFace ⟨7, 6, fun _ _ => (0, 0, 0), fun _ _ => (0, 0, 0)⟩ (92 / 100)
      = Except.ok ⟨⟨0, 6, 0, 6⟩, 92 / 100⟩ ∧
    ((7 : ℤ) - min 6 7) / 2 - (min 6 7 : ℤ) / 6 = -1 := by
  constructor
  · have hsk : ∀ y < 7, ∀ x < 6,
        skinMask ⟨7, 6, fun _ _ => (0, 0, 0), fun _ _ => (0, 0, 0)⟩ y x = false :=
      fun y _ x _ => rfl
    have href := refineMask_false _ 7 6 hsk
    rw [cropToFace_of_refinedFalse _ _ (fun y _ x _ => href y x)]
    rfl
  · decide

/-- Claim C5 (amended): for every image whose refined skin mask is entirely
false, `crop_to_face` raises no exception and returns the fallback crop: a
square of side `min(H, W)`, horizontally centred, its top edge at the
vertically centred position shifted up by a sixth of the side and clamped at
0 (the `ℕ` subtractions below truncate at zero exactly like the source's
`max(..., 0)`), with the same feather ratio applied to the crop. -/
theorem crop_to_face_fallback (im : ImageData) (ratio : ℚ)
    (hall : ∀ y < im.h, ∀ x < im.w, refineMask (skinMask im) im.h im.w y x = false) :
    cropToFace im ratio = Except.ok
      ⟨⟨(((im.h - min im.w im.h) / 2 - min im.w im.h / 6 : ℕ) : ℤ),
        (((im.h - min im.w im.h) / 2 - min im.w im.h / 6 + min im.w im.h : ℕ) : ℤ),
        (((im.w - min im.w im.h) / 2 : ℕ) : ℤ),
        (((im.w - min im.w im.h) / 2 + min im.w im.h : ℕ) : ℤ)⟩, ratio⟩ := by
  rw [cropToFace_of_refinedFalse im ratio hall]
  rfl

theorem crop_to_face_fallback_witness :
    (∀ y < 1, ∀ x < 1,
      refineMask (skinMask ⟨1, 1, fun _ _ => (0, 0, 0), fun _ _ => (0, 0, 0)⟩) 1 1 y x
        = false) ∧
    cropToFace ⟨1, 1, fun _ _ => (0, 0, 0), fun _ _ => (0, 0, 0)⟩ (92 / 100) = Except.ok
      ⟨⟨(((1 - min 1 1) / 2 - min 1 1 / 6 : ℕ) : ℤ),
        (((1 - min 1 1) / 2 - min 1 1 / 6 + min 1 1 : ℕ) : ℤ),
        (((1 - min 1 1) / 2 : ℕ) : ℤ),
        (((1 - min 1 1) / 2 + min 1 1 : ℕ) : ℤ)⟩, 92 / 100⟩ :=
  ⟨by decide, crop_to_face_fallback ⟨1, 1, fun _ _ => (0, 0, 0), fun _ _ => (0, 0, 0)⟩
    (92 / 100) (by decide)⟩

/-! ### Connectivity basics -/

theorem conn_cellTrue_left (m : Mask) (hh ww : ℕ) {p q : Cell}
    (h : Conn m hh ww p q) : cellTrue m hh ww p := h.1

theorem conn_cellTrue_right (m : Mask) (hh ww : ℕ) {p q : Cell}
    (h : Conn m hh ww p q) : cellTrue m hh ww q := by
  obtain ⟨hp, hrtg⟩ := h
  induction hrtg with
  | refl => exact hp
  | tail _ hstep _ => exact hstep.2.1

theorem adjStep_symm (m : Mask) (hh ww : ℕ) {p q : Cell}
    (h : adjStep m hh ww p q) : adjStep m hh ww q p := by
  obtain ⟨h1, h2, h3⟩ := h
  exact ⟨h2, h1, by unfold near at *; omega⟩

theorem conn_symm (m : Mask) (hh ww : ℕ) {p q : Cell}
    (h : Conn m hh ww p q) : Conn m hh ww q p :=
  ⟨conn_cellTrue_right m hh ww h,
    Relation.ReflTransGen.symmetric (fun _ _ hs => adjStep_symm m hh ww hs) h.2⟩

theorem conn_trans (m : Mask) (hh ww : ℕ) {p q r : Cell}
    (h1 : Conn m hh ww p q) (h2 : Conn m hh ww q r) : Conn m hh ww p r :=
  ⟨h1.1, h1.2.trans h2.2⟩

theorem conn_refl (m : Mask) (hh ww : ℕ) {p : Cell} (h : cellTrue m hh ww p) :
    Conn m hh ww p p := ⟨h, Relation.ReflTransGen.refl⟩

theorem conn_tail (m : Mask) (hh ww : ℕ) {p q r : Cell}
    (h : Conn m hh ww p q) (hs : adjStep m hh ww q r) : Conn m hh ww p r :=
  ⟨h.1, h.2.tail hs⟩

/-! ### The neighbour list -/

theorem mem_nbrs (hh ww : ℕ) (p q : Cell) :
    q ∈ nbrs hh ww p ↔ q.1 < hh ∧ q.2 < ww ∧ near p q := by
  simp only [nbrs, nbrOffsets, List.mem_filterMap, List.mem_cons, List.not_mem_nil, or_false]
  constructor
  · rintro ⟨d, hd, hf⟩
    rcases hd with h | h | h | h | h | h | h | h | h <;> subst h <;>
      (split at hf
       · injection hf with hf
         subst hf
         unfold near
         simp only
         omega
       · exact absurd hf (by simp))
  · rintro ⟨h1, h2, h3⟩
    unfold near at h3
    have hy : ((q.1 : ℤ) - p.1 = -1 ∨ (q.1 : ℤ) - p.1 = 0 ∨ (q.1 : ℤ) - p.1 = 1) := by omega
    have hx : ((q.2 : ℤ) - p.2 = -1 ∨ (q.2 : ℤ) - p.2 = 0 ∨ (q.2 : ℤ) - p.2 = 1) := by omega
    refine ⟨((q.1 : ℤ) - p.1, (q.2 : ℤ) - p.2), ?_, ?_⟩
    · rcases hy with h | h | h <;> rcases hx with h' | h' | h' <;> rw [h, h'] <;> simp
    · rw [if_pos (by omega)]
      have e1 : ((p.1 : ℤ) + ((q.1 : ℤ) - p.1)).toNat = q.1 := by omega
      have e2 : ((p.2 : ℤ) + ((q.2 : ℤ) - p.2)).toNat = q.2 := by omega
      rw [e1, e2]

theorem nbrs_nodup (hh ww : ℕ) (p : Cell) : (nbrs hh ww p).Nodup := by
  apply List.Nodup.filterMap
  · intro d1 d2 q hq1 hq2
    simp only [Option.mem_def] at hq1 hq2
    split at hq1
    · injection hq1 with hq1
      split at hq2
      · injection hq2 with hq2
        have e1 : (q.1 : ℤ) = p.1 + d1.1 := by rw [← hq1]; simp; omega
        have e2 : (q.2 : ℤ) = p.2 + d1.2 := by rw [← hq1]; simp; omega
        have e3 : (q.1 : ℤ) = p.1 + d2.1 := by rw [← hq2]; simp; omega
        have e4 : (q.2 : ℤ) = p.2 + d2.2 := by rw [← hq2]; simp; omega
        have : d1.1 = d2.1 := by omega
        have : d1.2 = d2.2 := by omega
        exact Prod.ext (by omega) (by omega)
      · exact absurd hq2 (by simp)
    · exact absurd hq1 (by simp)
  · decide

theorem adjStep_of_nbrs (m : Mask) (hh ww : ℕ) {p q : Cell} (hp : cellTrue m hh ww p)
    (hq : q ∈ nbrs hh ww p) (hm : m q.1 q.2 = true) : adjStep m hh ww p q := by
  rw [mem_nbrs] at hq
  exact ⟨hp, ⟨hq.1, hq.2.1, hm⟩, hq.2.2⟩

theorem nbrs_of_adjStep (m : Mask) (hh ww : ℕ) {p q : Cell} (h : adjStep m hh ww p q) :
    q ∈ nbrs hh ww p := by
  rw [mem_nbrs]
  exact ⟨h.2.1.1, h.2.1.2.1, h.2.2⟩

theorem mem_gridCells (hh ww : ℕ) (p : Cell) :
    p ∈ gridCells hh ww ↔ p.1 < hh ∧ p.2 < ww := by
  simp [gridCells, Finset.mem_product, Finset.mem_range]

theorem gridCells_card (hh ww : ℕ) : (gridCells hh ww).card = hh * ww := by
  simp [gridCells]

/-! ### The breadth-first search of `flood_fill` -/

theorem ffRun_nil (m : Mask) (hh ww n : ℕ) (s : FFState) (h : s.queue = []) :
    ffRun m hh ww n s = s := by
  cases n with
  | zero => rfl
  | succ n => simp only [ffRun, h]

theorem ffRun_cons (m : Mask) (hh ww n : ℕ) (s : FFState) (p : Cell) (rest : List Cell)
    (h : s.queue = p :: rest) :
    ffRun m hh ww (n + 1) s = ffRun m hh ww n (ffStep m hh ww s) := by
  simp only [ffRun, h]

theorem mem_news (m : Mask) (hh ww : ℕ) (v : Finset Cell) (p q : Cell) :
    q ∈ (nbrs hh ww p).filter (fun q2 => !decide (q2 ∈ v) && m q2.1 q2.2) ↔
      q ∈ nbrs hh ww p ∧ q ∉ v ∧ m q.1 q.2 = true := by
  simp [List.mem_filter]

theorem ffStep_inv (m : Mask) (hh ww : ℕ) (v0 : Finset Cell) (s0 : Cell) (s : FFState)
    (hinv : FFInv m hh ww v0 s0 s)
    (p : Cell) (rest : List Cell) (hq : s.queue = p :: rest) :
    FFInv m hh ww v0 s0 (ffStep m hh ww s) ∧
    ffPot hh ww (ffStep m hh ww s) + 1 = ffPot hh ww s := by
  obtain ⟨vis, queue, coords⟩ := s
  dsimp only at hq
  subst hq
  obtain ⟨hvis, hcn, hqn, hdisj, hcv0, hqv0, hcconn, hqconn, hclo, hs0⟩ := hinv
  dsimp only at hvis hcn hqn hdisj hcv0 hqv0 hcconn hqconn hclo hs0 ⊢
  set news := (nbrs hh ww p).filter (fun q2 => !decide (q2 ∈ vis) && m q2.1 q2.2) with hnews
  have hstep : ffStep m hh ww ⟨vis, p :: rest, coords⟩
      = ⟨vis ∪ news.toFinset, rest ++ news, coords ++ [p]⟩ := rfl
  rw [hstep]
  have hpconn : Conn m hh ww s0 p := hqconn p (List.mem_cons_self p rest)
  have hpcell : cellTrue m hh ww p := conn_cellTrue_right m hh ww hpconn
  have hnm : ∀ q, q ∈ news ↔ q ∈ nbrs hh ww p ∧ q ∉ vis ∧ m q.1 q.2 = true := by
    intro q; rw [hnews, mem_news]
  have hnadj : ∀ q ∈ news, adjStep m hh ww p q := by
    intro q hqn2
    obtain ⟨h1, _, h3⟩ := (hnm q).mp hqn2
    exact adjStep_of_nbrs m hh ww hpcell h1 h3
  have hnconn : ∀ q ∈ news, Conn m hh ww s0 q := fun q hq2 =>
    conn_tail m hh ww hpconn (hnadj q hq2)
  have hnfresh : ∀ q ∈ news, q ∉ vis := fun q hq2 => ((hnm q).mp hq2).2.1
  have hngrid : ∀ q ∈ news, q ∈ gridCells hh ww := by
    intro q hq2
    have := conn_cellTrue_right m hh ww (hnconn q hq2)
    exact (mem_gridCells hh ww q).mpr ⟨this.1, this.2.1⟩
  have hnnodup : news.Nodup := List.Nodup.filter _ (nbrs_nodup hh ww p)
  have hv0vis : v0 ⊆ vis := by
    rw [hvis]; intro q hq2; exact Finset.mem_union_left _ (Finset.mem_union_left _ hq2)
  have hcvis : ∀ q ∈ coords, q ∈ vis := by
    intro q hq2
    rw [hvis]
    exact Finset.mem_union_left _ (Finset.mem_union_right _ (List.mem_toFinset.mpr hq2))
  have hqvis : ∀ q ∈ p :: rest, q ∈ vis := by
    intro q hq2
    rw [hvis]
    exact Finset.mem_union_right _ (List.mem_toFinset.mpr hq2)
  constructor
  · refine ⟨?_, ?_, ?_, ?_, ?_, ?_, ?_, ?_, ?_, ?_⟩
    · -- visited decomposition
      dsimp only
      ext q
      rw [hvis]
      simp only [Finset.mem_union, List.mem_toFinset, List.mem_append, List.mem_cons,
        List.mem_singleton, List.not_mem_nil, or_false]
      tauto
    · -- coords nodup
      dsimp only
      rw [List.nodup_append]
      refine ⟨hcn, List.nodup_singleton p, ?_⟩
      intro q hq2 hq3
      rw [List.mem_singleton] at hq3
      subst hq3
      exact hdisj q hq2 (List.mem_cons_self q rest)
    · -- queue nodup
      dsimp only
      exact List.Nodup.append (List.Nodup.of_cons hqn) hnnodup
        (fun q hq2 hq3 => hnfresh q hq3 (hqvis q (List.mem_cons_of_mem p hq2)))
    · -- coords and queue disjoint
      dsimp only
      intro q hq2 hq3
      rw [List.mem_append] at hq2 hq3
      rcases hq2 with hq2 | hq2
      · rcases hq3 with hq3 | hq3
        · exact hdisj q hq2 (List.mem_cons_of_mem p hq3)
        · exact hnfresh q hq3 (hcvis q hq2)
      · rw [List.mem_singleton] at hq2
        subst hq2
        rcases hq3 with hq3 | hq3
        · exact (List.nodup_cons.mp hqn).1 hq3
        · exact hnfresh q hq3 (hqvis q (List.mem_cons_self q rest))
    · -- coords avoid v0
      dsimp only
      intro q hq2
      rw [List.mem_append] at hq2
      rcases hq2 with hq2 | hq2
      · exact hcv0 q hq2
      · rw [List.mem_singleton] at hq2
        subst hq2
        exact hqv0 q (List.mem_cons_self q rest)
    · -- queue avoids v0
      dsimp only
      intro q hq2
      rw [List.mem_append] at hq2
      rcases hq2 with hq2 | hq2
      · exact hqv0 q (List.mem_cons_of_mem p hq2)
      · exact fun hq3 => hnfresh q hq2 (hv0vis hq3)
    · -- coords connected
      dsimp only
      intro q hq2
      rw [List.mem_append] at hq2
      rcases hq2 with hq2 | hq2
      · exact hcconn q hq2
      · rw [List.mem_singleton] at hq2
        subst hq2
        exact hpconn
    · -- queue connected
      dsimp only
      intro q hq2
      rw [List.mem_append] at hq2
      rcases hq2 with hq2 | hq2
      · exact hqconn q (List.mem_cons_of_mem p hq2)
      · exact hnconn q hq2
    · -- processed cells have all neighbours visited
      dsimp only
      intro q1 hq1 q hadj
      rw [List.mem_append] at hq1
      rcases hq1 with hq1 | hq1
      · exact Finset.mem_union_left _ (hclo q1 hq1 q hadj)
      · rw [List.mem_singleton] at hq1
        subst hq1
        by_cases hqv : q ∈ vis
        · exact Finset.mem_union_left _ hqv
        · refine Finset.mem_union_right _ (List.mem_toFinset.mpr ?_)
          exact (hnm q).mpr ⟨nbrs_of_adjStep m hh ww hadj, hqv, hadj.2.1.2.2⟩
    · -- the start is recorded
      dsimp only
      rcases hs0 with hs0 | hs0
      · exact Or.inl (List.mem_append_left _ hs0)
      · rcases List.mem_cons.mp hs0 with hs0 | hs0
        · subst hs0
          exact Or.inl (List.mem_append_right _ (List.mem_singleton.mpr rfl))
        · exact Or.inr (List.mem_append_left _ hs0)
  · -- the potential decreases by exactly one
    dsimp only [ffPot]
    have hsub : news.toFinset ⊆ gridCells hh ww \ vis := by
      intro q hq2
      rw [List.mem_toFinset] at hq2
      exact Finset.mem_sdiff.mpr ⟨hngrid q hq2, hnfresh q hq2⟩
    have hdiff : gridCells hh ww \ (vis ∪ news.toFinset)
        = (gridCells hh ww \ vis) \ news.toFinset := by
      ext q; simp only [Finset.mem_sdiff, Finset.mem_union]; tauto
    rw [hdiff, Finset.card_sdiff hsub, List.toFinset_card_of_nodup hnnodup]
    have hle : news.toFinset.card ≤ (gridCells hh ww \ vis).card :=
      Finset.card_le_card hsub
    rw [List.toFinset_card_of_nodup hnnodup] at hle
    simp only [List.length_append, List.length_cons]
    omega

theorem ffRun_spec (m : Mask) (hh ww : ℕ) (v0 : Finset Cell) (s0 : Cell) :
    ∀ n (s : FFState), FFInv m hh ww v0 s0 s → ffPot hh ww s ≤ n →
      FFInv m hh ww v0 s0 (ffRun m hh ww n s) ∧ (ffRun m hh ww n s).queue = [] := by
  intro n
  induction n with
  | zero =>
    intro s hinv hpot
    have hq : s.queue = [] := by
      rw [← List.length_eq_zero]
      unfold ffPot at hpot
      omega
    rw [ffRun_nil m hh ww 0 s hq]
    exact ⟨hinv, hq⟩
  | succ n ih =>
    intro s hinv hpot
    cases hq : s.queue with
    | nil =>
      rw [ffRun_nil m hh ww (n + 1) s hq]
      exact ⟨hinv, hq⟩
    | cons p rest =>
      obtain ⟨hstep, hpotstep⟩ := ffStep_inv m hh ww v0 s0 s hinv p rest hq
      rw [ffRun_cons m hh ww n s p rest hq]
      exact ih (ffStep m hh ww s) hstep (by omega)

/-- Specification of `flood_fill` on an unvisited true start cell: it adds to
`visited` exactly the coordinates it returns, and those are, without
duplicates, exactly the 8-connected component of the start — provided the
incoming visited set is a union of complete components not containing the
start. -/
theorem floodFill_spec (m : Mask) (hh ww : ℕ) (v0 : Finset Cell) (s0 : Cell)
    (hs0 : cellTrue m hh ww s0) (hv0 : VClosed m hh ww v0) (hnv : s0 ∉ v0) :
    (floodFill m hh ww v0 s0.1 s0.2).1 = v0 ∪ (floodFill m hh ww v0 s0.1 s0.2).2.toFinset ∧
    (floodFill m hh ww v0 s0.1 s0.2).2.Nodup ∧
    (∀ q : Cell, q ∈ (floodFill m hh ww v0 s0.1 s0.2).2 ↔ Conn m hh ww s0 q) := by
  have hinit : FFInv m hh ww v0 s0 ⟨insert (s0.1, s0.2) v0, [(s0.1, s0.2)], []⟩ := by
    refine ⟨?_, List.nodup_nil, List.nodup_singleton _, ?_, ?_, ?_, ?_, ?_, ?_, ?_⟩
    · dsimp only
      ext q
      simp only [Finset.mem_insert, Finset.mem_union, List.toFinset_nil,
        Finset.not_mem_empty, List.mem_toFinset, List.mem_singleton]
      tauto
    · intro q hq; exact absurd hq (List.not_mem_nil q)
    · intro q hq; exact absurd hq (List.not_mem_nil q)
    · intro q hq
      rw [List.mem_singleton] at hq
      subst hq
      exact hnv
    · intro q hq; exact absurd hq (List.not_mem_nil q)
    · intro q hq
      rw [List.mem_singleton] at hq
      subst hq
      exact conn_refl m hh ww hs0
    · intro q hq; exact absurd hq (List.not_mem_nil q)
    · exact Or.inr (List.mem_singleton.mpr rfl)
  have hpot : ffPot hh ww ⟨insert (s0.1, s0.2) v0, [(s0.1, s0.2)], []⟩ ≤ hh * ww + 1 := by
    unfold ffPot
    dsimp only
    have h1 : (gridCells hh ww \ insert (s0.1, s0.2) v0).card ≤ (gridCells hh ww).card :=
      Finset.card_le_card (Finset.sdiff_subset)
    rw [gridCells_card] at h1
    simp only [List.length_singleton]
    omega
  obtain ⟨⟨hvis, hcn, _, _, hcv0, _, hcconn, hqconn, hclo, hs0mem⟩, hqnil⟩ :=
    ffRun_spec m hh ww v0 s0 (hh * ww + 1) ⟨insert (s0.1, s0.2) v0, [(s0.1, s0.2)], []⟩
      hinit hpot
  set f := ffRun m hh ww (hh * ww + 1) ⟨insert (s0.1, s0.2) v0, [(s0.1, s0.2)], []⟩ with hf
  have hff : floodFill m hh ww v0 s0.1 s0.2 = (f.visited, f.coords) := rfl
  rw [hff]
  dsimp only
  have hqe : f.queue.toFinset = (∅ : Finset Cell) := by rw [hqnil]; rfl
  rw [hqe, Finset.union_empty] at hvis
  have hs0c : s0 ∈ f.coords := by
    rcases hs0mem with h | h
    · exact h
    · rw [hqnil] at h
      exact absurd h (List.not_mem_nil s0)
  refine ⟨hvis, hcn, ?_⟩
  intro q
  constructor
  · exact hcconn q
  · intro hconn
    obtain ⟨hcq, hrtg⟩ := hconn
    induction hrtg with
    | refl => exact hs0c
    | tail hprev hstep ih =>
      rename_i bmid c
      have hmem := hclo bmid ih c hstep
      rw [hvis] at hmem
      rcases Finset.mem_union.mp hmem with hmem2 | hmem2
      · exact absurd (hv0 c hmem2 bmid (adjStep_symm m hh ww hstep)) (hcv0 bmid ih)
      · exact List.mem_toFinset.mp hmem2

/-- `flood_fill` started on an already-visited cell is inert: it returns just
the start coordinate and leaves `visited` unchanged. -/
theorem floodFill_visited (m : Mask) (hh ww : ℕ) (v0 : Finset Cell) (s0 : Cell)
    (hs0 : cellTrue m hh ww s0) (hv0 : VClosed m hh ww v0) (hin : s0 ∈ v0) :
    floodFill m hh ww v0 s0.1 s0.2 = (v0, [s0]) := by
  have hins : insert (s0.1, s0.2) v0 = v0 := Finset.insert_eq_self.mpr hin
  have hnews : ((nbrs hh ww (s0.1, s0.2)).filter
      (fun q2 => !decide (q2 ∈ v0) && m q2.1 q2.2)) = [] := by
    rw [List.filter_eq_nil_iff]
    intro q hq
    have : q ∈ v0 → ¬(!decide (q ∈ v0) && m q.1 q.2) = true := by
      intro h; simp [h]
    by_cases hqm : m q.1 q.2 = true
    · refine this ?_
      have hadj : adjStep m hh ww s0 q := adjStep_of_nbrs m hh ww hs0 hq hqm
      exact hv0 s0 hin q hadj
    · simp [hqm]
  have hstep : ffStep m hh ww ⟨v0, [(s0.1, s0.2)], []⟩ = ⟨v0, [], [(s0.1, s0.2)]⟩ := by
    dsimp only [ffStep]
    rw [hnews]
    simp
  unfold floodFill
  rw [hins]
  rw [ffRun_cons m hh ww (hh * ww) _ (s0.1, s0.2) [] rfl, hstep,
    ffRun_nil m hh ww (hh * ww) _ rfl]

/-! ### Generic fold lemmas and row-major order facts -/

theorem foldl_range_inv {St : Type} (f : St → ℕ → St) (P : ℕ → St → Prop) (n : ℕ) (s0 : St)
    (h0 : P 0 s0) (hstep : ∀ i s, i < n → P i s → P (i + 1) (f s i)) :
    P n ((List.range n).foldl f s0) := by
  induction n with
  | zero => exact h0
  | succ n ih =>
    rw [List.range_succ, List.foldl_append, List.foldl_cons, List.foldl_nil]
    exact hstep n _ (Nat.lt_succ_self n)
      (ih (fun i s hi hp => hstep i s (Nat.lt_succ_of_lt hi) hp))

theorem foldl_filter {α St : Type} (p : α → Bool) (f : St → α → St) (l : List α) (s0 : St) :
    (l.filter p).foldl f s0 = l.foldl (fun s a => if p a = true then f s a else s) s0 := by
  induction l generalizing s0 with
  | nil => rfl
  | cons a l ih =>
    by_cases hp : p a = true
    · rw [List.filter_cons_of_pos hp, List.foldl_cons, List.foldl_cons, if_pos hp, ih]
    · rw [List.filter_cons_of_neg hp, List.foldl_cons, if_neg hp, ih]

theorem rmLt_succ_iff (s : Cell) (y x : ℕ) :
    rmLt s (y, x + 1) ↔ rmLt s (y, x) ∨ s = (y, x) := by
  unfold rmLt
  rw [show (s = (y, x)) ↔ (s.1 = y ∧ s.2 = x) from Prod.ext_iff]
  omega

theorem rmLt_row_end (s : Cell) (y ww : ℕ) (hs : s.2 < ww) :
    rmLt s (y, ww) ↔ rmLt s (y + 1, 0) := by
  unfold rmLt
  omega

theorem rmLt_col0 (s : Cell) (y x : ℕ) (h : rmLt s (y, 0)) : rmLt s (y, x) := by
  unfold rmLt at *
  omega

theorem rmLt_self_succ (y x : ℕ) : rmLt (y, x) (y, x + 1) := by
  unfold rmLt
  omega

theorem rmLe_total_lt (a b : Cell) : rmLe a b ∨ rmLt b a := by
  unfold rmLe rmLt
  omega

theorem rmLe_trans_lt (a b c : Cell) (h1 : rmLt a b) (h2 : rmLe b c) : rmLe a c := by
  unfold rmLe rmLt at *
  omega

theorem nodup_enum_length {α : Type} {L1 L2 : List α} [DecidableEq α] (h1 : L1.Nodup)
    (h2 : L2.Nodup) (h : ∀ r, r ∈ L1 ↔ r ∈ L2) : L1.length = L2.length :=
  List.Perm.length_eq ((List.perm_ext_iff_of_nodup h1 h2).2 h)

/-! ### The scan invariant of `largest_component_mask` -/

/-- Moving the scan position one cell forward keeps the invariant, as long as
the cell just scanned is either not a true pixel or already visited. -/
theorem ScanInv_extend (m : Mask) (hh ww y x : ℕ) (st : Finset Cell × List Cell)
    (hinv : ScanInv m hh ww (y, x) st)
    (hcov : cellTrue m hh ww (y, x) → (y, x) ∈ st.1) :
    ScanInv m hh ww (y, x + 1) st := by
  obtain ⟨hchar, hbest⟩ := hinv
  constructor
  · intro p
    rw [hchar p]
    constructor
    · rintro ⟨s, hs1, hs2, hs3⟩
      exact ⟨s, (rmLt_succ_iff s y x).mpr (Or.inl hs1), hs2, hs3⟩
    · rintro ⟨s, hs1, hs2, hs3⟩
      rcases (rmLt_succ_iff s y x).mp hs1 with h | h
      · exact ⟨s, h, hs2, hs3⟩
      · subst h
        have hyx := hcov hs2
        rw [hchar] at hyx
        obtain ⟨s2, h1, h2, h3⟩ := hyx
        exact ⟨s2, h1, h2, conn_trans m hh ww h3 hs3⟩
  · rcases hbest with ⟨hb1, hb2⟩ | ⟨rep, hrep1, hrep2, hrep3, hrep4, hrep5, hrep6⟩
    · left
      refine ⟨hb1, ?_⟩
      intro s hs hcell
      rcases (rmLt_succ_iff s y x).mp hs with h | h
      · exact hb2 s h hcell
      · subst h
        have hyx := hcov hcell
        rw [hchar] at hyx
        obtain ⟨s2, h1, h2, _⟩ := hyx
        exact hb2 s2 h1 h2
    · right
      refine ⟨rep, hrep1, (rmLt_succ_iff rep y x).mpr (Or.inl hrep2), hrep3, hrep4, hrep5, ?_⟩
      intro s hs hcell L hLn hLc
      rcases (rmLt_succ_iff s y x).mp hs with h | h
      · exact hrep6 s h hcell L hLn hLc
      · subst h
        have hyx := hcov hcell
        rw [hchar] at hyx
        obtain ⟨s2, h1, h2, h3⟩ := hyx
        have hLc2 : ∀ r : Cell, r ∈ L ↔ Conn m hh ww s2 r := by
          intro r
          rw [hLc r]
          exact ⟨fun hc => conn_trans m hh ww h3 hc,
            fun hc => conn_trans m hh ww (conn_symm m hh ww h3) hc⟩
        exact hrep6 s2 h1 h2 L hLn hLc2

/-- Processing one cell of the scan preserves the invariant.  The candidate
test uses the row-start snapshot `v0` of the visited set, exactly as the
source computes `candidates = np.where(row & ~visited[y])` before flood
filling the row. -/
theorem lcmCell_inv (m : Mask) (hh ww y x : ℕ) (hy : y < hh) (hx : x < ww)
    (v0 : Finset Cell) (st : Finset Cell × List Cell)
    (hv0 : ∀ p : Cell, p ∈ v0 ↔
      ∃ s : Cell, rmLt s (y, 0) ∧ cellTrue m hh ww s ∧ Conn m hh ww s p)
    (hinv : ScanInv m hh ww (y, x) st) :
    ScanInv m hh ww (y, x + 1)
      (if (m y x && !decide ((y, x) ∈ v0)) = true then lcmStep m hh ww y st x else st) := by
  obtain ⟨hchar, hbest⟩ := hinv
  have hclosed : VClosed m hh ww st.1 := by
    intro p hp q hadj
    rw [hchar] at hp ⊢
    obtain ⟨s, h1, h2, h3⟩ := hp
    exact ⟨s, h1, h2, conn_tail m hh ww h3 hadj⟩
  by_cases hcond : (m y x && !decide ((y, x) ∈ v0)) = true
  · rw [if_pos hcond]
    rw [Bool.and_eq_true, Bool.not_eq_true', decide_eq_false_iff_not] at hcond
    obtain ⟨hm, hnv0⟩ := hcond
    have hcell : cellTrue m hh ww (y, x) := ⟨hy, hx, hm⟩
    by_cases hvis : (y, x) ∈ st.1
    · -- the start is already visited: the flood fill is inert
      have hex : ∃ s : Cell, rmLt s (y, x) ∧ cellTrue m hh ww s ∧ Conn m hh ww s (y, x) :=
        (hchar (y, x)).mp hvis
      have hlen : 1 ≤ st.2.length := by
        rcases hbest with ⟨hb1, hb2⟩ | ⟨rep, hrep1, _, _, hrep4, _, _⟩
        · obtain ⟨s, h1, h2, _⟩ := hex
          exact absurd h2 (hb2 s h1)
        · have hrm : rep ∈ st.2 := (hrep4 rep).mpr (conn_refl m hh ww hrep1)
          exact List.length_pos.mpr (List.ne_nil_of_mem hrm)
      have hff2 : floodFill m hh ww st.1 y x = (st.1, [(y, x)]) :=
        floodFill_visited m hh ww st.1 (y, x) hcell hclosed hvis
      have hstep : lcmStep m hh ww y st x = st := by
        dsimp only [lcmStep]
        rw [hff2]
        dsimp only
        rw [List.length_singleton, if_neg (by omega)]
      rw [hstep]
      exact ScanInv_extend m hh ww y x st ⟨hchar, hbest⟩ fun _ => hvis
    · -- genuine discovery of a new component
      have hff := floodFill_spec m hh ww st.1 (y, x) hcell hclosed hvis
      have hr1 : (floodFill m hh ww st.1 y x).1
          = st.1 ∪ (floodFill m hh ww st.1 y x).2.toFinset := hff.1
      have hr2 : (floodFill m hh ww st.1 y x).2.Nodup := hff.2.1
      have hr3 : ∀ q : Cell, q ∈ (floodFill m hh ww st.1 y x).2 ↔ Conn m hh ww (y, x) q :=
        hff.2.2
      set r := floodFill m hh ww st.1 y x with hrdef
      have hmin : ∀ q : Cell, Conn m hh ww (y, x) q → rmLe (y, x) q := by
        intro q hq
        rcases rmLe_total_lt (y, x) q with h | h
        · exact h
        · exfalso
          have hqt : cellTrue m hh ww q := conn_cellTrue_right m hh ww hq
          have : (y, x) ∈ st.1 :=
            (hchar (y, x)).mpr ⟨q, h, hqt, conn_symm m hh ww hq⟩
          exact hvis this
      have hyxr : (y, x) ∈ r.2 := (hr3 (y, x)).mpr (conn_refl m hh ww hcell)
      have hrpos : 1 ≤ r.2.length := List.length_pos.mpr (List.ne_nil_of_mem hyxr)
      have hcharNew : ∀ p : Cell, p ∈ r.1 ↔
          ∃ s : Cell, rmLt s (y, x + 1) ∧ cellTrue m hh ww s ∧ Conn m hh ww s p := by
        intro p
        rw [hr1]
        simp only [Finset.mem_union, List.mem_toFinset]
        constructor
        · rintro (hp | hp)
          · obtain ⟨s, h1, h2, h3⟩ := (hchar p).mp hp
            exact ⟨s, (rmLt_succ_iff s y x).mpr (Or.inl h1), h2, h3⟩
          · exact ⟨(y, x), (rmLt_succ_iff _ y x).mpr (Or.inr rfl), hcell, (hr3 p).mp hp⟩
        · rintro ⟨s, hs1, hs2, hs3⟩
          rcases (rmLt_succ_iff s y x).mp hs1 with h | h
          · exact Or.inl ((hchar p).mpr ⟨s, h, hs2, hs3⟩)
          · subst h
            exact Or.inr ((hr3 p).mpr hs3)
      have hstep : lcmStep m hh ww y st x
          = (r.1, if st.2.length < r.2.length then r.2 else st.2) := rfl
      rw [hstep]
      by_cases hlt : st.2.length < r.2.length
      · rw [if_pos hlt, Prod.mk.eta]
        refine ⟨hcharNew, Or.inr ⟨(y, x), hcell, rmLt_self_succ y x, hr2, hr3, ?_, ?_⟩⟩
        · exact fun q hq => hmin q ((hr3 q).mp hq)
        · intro s hs hcell2 L hLn hLc
          rcases (rmLt_succ_iff s y x).mp hs with h | h
          · -- an earlier component: strictly shorter than the new best
            have hub : L.length ≤ st.2.length := by
              rcases hbest with ⟨hb1, hb2⟩ | ⟨rep, _, _, _, _, _, hrep6⟩
              · exact absurd hcell2 (hb2 s h)
              · exact (hrep6 s h hcell2 L hLn hLc).1
            exact ⟨by omega, by omega⟩
          · subst h
            have hLlen : L.length = r.2.length :=
              nodup_enum_length hLn hr2 (fun q => by rw [hLc q, hr3 q])
            exact ⟨le_of_eq hLlen, fun _ q hq => hmin q ((hLc q).mp hq)⟩
      · rw [if_neg hlt]
        unfold ScanInv
        dsimp only
        have hbg : ∃ rep : Cell, cellTrue m hh ww rep ∧ rmLt rep (y, x) ∧ st.2.Nodup ∧
            (∀ q : Cell, q ∈ st.2 ↔ Conn m hh ww rep q) ∧
            (∀ q : Cell, q ∈ st.2 → rmLe rep q) ∧
            (∀ s : Cell, rmLt s (y, x) → cellTrue m hh ww s →
              ∀ L : List Cell, L.Nodup → (∀ q : Cell, q ∈ L ↔ Conn m hh ww s q) →
                L.length ≤ st.2.length ∧
                  (L.length = st.2.length → ∀ q ∈ L, rmLe rep q)) := by
          rcases hbest with ⟨hb1, _⟩ | h
          · exfalso
            rw [hb1] at hlt
            simp only [List.length_nil] at hlt
            omega
          · exact h
        obtain ⟨rep, hrep1, hrep2, hrep3, hrep4, hrep5, hrep6⟩ := hbg
        refine ⟨hcharNew, Or.inr ⟨rep, hrep1,
            (rmLt_succ_iff rep y x).mpr (Or.inl hrep2), hrep3, hrep4, hrep5, ?_⟩⟩
        intro s hs hcell2 L hLn hLc
        rcases (rmLt_succ_iff s y x).mp hs with h | h
        · exact hrep6 s h hcell2 L hLn hLc
        · subst h
          have hLlen : L.length = r.2.length :=
            nodup_enum_length hLn hr2 (fun q => by rw [hLc q, hr3 q])
          refine ⟨by omega, ?_⟩
          intro _ q hq
          exact rmLe_trans_lt rep (y, x) q hrep2 (hmin q ((hLc q).mp hq))
  · rw [if_neg hcond]
    simp only [Bool.and_eq_true, Bool.not_eq_true', decide_eq_false_iff_not, not_and,
      not_not] at hcond
    apply ScanInv_extend m hh ww y x st ⟨hchar, hbest⟩
    intro hcell
    have hyv0 : (y, x) ∈ v0 := hcond hcell.2.2
    obtain ⟨s, h1, h2, h3⟩ := (hv0 (y, x)).mp hyv0
    exact (hchar (y, x)).mpr ⟨s, rmLt_col0 s y x h1, h2, h3⟩

/-- Scanning one full row preserves the invariant, moving from the start of
row `y` to the start of row `y + 1`. -/
theorem lcmRow_inv (m : Mask) (hh ww y : ℕ) (hy : y < hh) (st : Finset Cell × List Cell)
    (hinv : ScanInv m hh ww (y, 0) st) :
    ScanInv m hh ww (y + 1, 0) (lcmRow m hh ww st y) := by
  have hv0 := hinv.1
  have hscan : ScanInv m hh ww (y, ww) (lcmRow m hh ww st y) := by
    unfold lcmRow
    rw [foldl_filter]
    exact foldl_range_inv _ (fun i st2 => ScanInv m hh ww (y, i) st2) ww st hinv
      (fun i st2 hi hp => lcmCell_inv m hh ww y i hy hi st.1 st2 hv0 hp)
  -- translate the scan position from (y, ww) to (y + 1, 0)
  obtain ⟨hchar, hbest⟩ := hscan
  have hconv : ∀ s : Cell, cellTrue m hh ww s → (rmLt s (y, ww) ↔ rmLt s (y + 1, 0)) :=
    fun s hs => rmLt_row_end s y ww hs.2.1
  constructor
  · intro p
    rw [hchar p]
    constructor
    · rintro ⟨s, h1, h2, h3⟩
      exact ⟨s, (hconv s h2).mp h1, h2, h3⟩
    · rintro ⟨s, h1, h2, h3⟩
      exact ⟨s, (hconv s h2).mpr h1, h2, h3⟩
  · rcases hbest with ⟨hb1, hb2⟩ | ⟨rep, hrep1, hrep2, hrep3, hrep4, hrep5, hrep6⟩
    · left
      exact ⟨hb1, fun s hs hc => hb2 s ((hconv s hc).mpr hs) hc⟩
    · right
      exact ⟨rep, hrep1, (hconv rep hrep1).mp hrep2, hrep3, hrep4, hrep5,
        fun s hs hc => hrep6 s ((hconv s hc).mpr hs) hc⟩

/-- The scan invariant holds of the full fold of `largest_component_mask`. -/
theorem lcmFold_inv (m : Mask) (hh ww : ℕ) : ScanInv m hh ww (hh, 0) (lcmFold m hh ww) := by
  unfold lcmFold
  refine foldl_range_inv _ (fun y st2 => ScanInv m hh ww (y, 0) st2) hh (∅, []) ?_
    (fun y st2 hy hp => lcmRow_inv m hh ww y hy st2 hp)
  constructor
  · intro p
    simp only [Finset.not_mem_empty, false_iff]
    rintro ⟨s, hs, _, _⟩
    unfold rmLt at hs
    omega
  · left
    refine ⟨rfl, ?_⟩
    intro s hs
    unfold rmLt at hs
    omega

/-- Every in-grid cell is scanned by the end of the fold. -/
theorem rmLt_end (m : Mask) (hh ww : ℕ) (s : Cell) (hs : cellTrue m hh ww s) :
    rmLt s (hh, 0) := by
  unfold rmLt
  exact Or.inl hs.1

/-- When `largest_component_mask` returns a mask, that mask has an in-grid
true pixel. -/
theorem lcm_some_nonempty (m : Mask) (hh ww : ℕ) (out : Mask)
    (hs : largestComponentMask m hh ww = some out) : (trueCells out hh ww).Nonempty := by
  obtain ⟨hchar, hbest⟩ := lcmFold_inv m hh ww
  simp only [largestComponentMask] at hs
  by_cases hb : (lcmFold m hh ww).2 = []
  · rw [if_pos hb] at hs
    exact Option.noConfusion hs
  · rw [if_neg hb] at hs
    injection hs with hs
    rcases hbest with ⟨hb1, _⟩ | ⟨rep, hrep1, _, _, hrep4, _, _⟩
    · exact absurd hb1 hb
    · refine ⟨rep, ?_⟩
      rw [mem_trueCells]
      refine ⟨hrep1.1, hrep1.2.1, ?_⟩
      rw [← hs]
      simp only [decide_eq_true_eq, Prod.mk.eta]
      exact (hrep4 rep).mpr (conn_refl m hh ww hrep1)

/-! ### Claim C4 -/

/-- Claim C4: `largest_component_mask` returns `none` exactly when the mask
has no true pixel; otherwise it returns a mask whose true pixels are exactly
one 8-connected region — the component of a representative cell `rep` that is
the row-major first pixel of its region — of maximal pixel count, and on ties
between regions of equal count the returned one is the one whose first pixel
comes earliest in row-major order. -/
theorem largest_component_mask_spec (m : Mask) (hh ww : ℕ) :
    (largestComponentMask m hh ww = none ↔ ∀ p : Cell, ¬ cellTrue m hh ww p) ∧
    (∀ p0 : Cell, cellTrue m hh ww p0 →
      ∃ out rep, largestComponentMask m hh ww = some out ∧ cellTrue m hh ww rep ∧
        (∀ q : Cell, out q.1 q.2 = true ↔ Conn m hh ww rep q) ∧
        (∀ q : Cell, Conn m hh ww rep q → rmLe rep q) ∧
        (∀ s : Cell, cellTrue m hh ww s →
          ∀ L B : List Cell, L.Nodup → B.Nodup →
            (∀ r : Cell, r ∈ L ↔ Conn m hh ww s r) →
            (∀ r : Cell, r ∈ B ↔ Conn m hh ww rep r) →
            L.length ≤ B.length ∧ (L.length = B.length → ∀ r ∈ L, rmLe rep r))) := by
  obtain ⟨hchar, hbest⟩ := lcmFold_inv m hh ww
  have hnone_iff : (largestComponentMask m hh ww = none) ↔ (lcmFold m hh ww).2 = [] := by
    simp only [largestComponentMask]
    by_cases hb : (lcmFold m hh ww).2 = []
    · rw [if_pos hb]
      simp [hb]
    · rw [if_neg hb]
      simp [hb]
  constructor
  · rw [hnone_iff]
    constructor
    · intro hb p hp
      rcases hbest with ⟨_, hb2⟩ | ⟨rep, hrep1, _, _, hrep4, _, _⟩
      · exact hb2 p (rmLt_end m hh ww p hp) hp
      · have hrm : rep ∈ (lcmFold m hh ww).2 := (hrep4 rep).mpr (conn_refl m hh ww hrep1)
        rw [hb] at hrm
        exact List.not_mem_nil rep hrm
    · intro hall
      rcases hbest with ⟨hb1, _⟩ | ⟨rep, hrep1, _⟩
      · exact hb1
      · exact absurd hrep1 (hall rep)
  · intro p0 hp0
    have hbg : ∃ rep : Cell, cellTrue m hh ww rep ∧ rmLt rep (hh, 0) ∧
        (lcmFold m hh ww).2.Nodup ∧
        (∀ q : Cell, q ∈ (lcmFold m hh ww).2 ↔ Conn m hh ww rep q) ∧
        (∀ q : Cell, q ∈ (lcmFold m hh ww).2 → rmLe rep q) ∧
        (∀ s : Cell, rmLt s (hh, 0) → cellTrue m hh ww s →
          ∀ L : List Cell, L.Nodup → (∀ q : Cell, q ∈ L ↔ Conn m hh ww s q) →
            L.length ≤ (lcmFold m hh ww).2.length ∧
              (L.length = (lcmFold m hh ww).2.length →
                ∀ q ∈ L, rmLe rep q)) := by
      rcases hbest with ⟨_, hb2⟩ | h
      · exact absurd hp0 (hb2 p0 (rmLt_end m hh ww p0 hp0))
      · exact h
    obtain ⟨rep, hrep1, hrep2, hrep3, hrep4, hrep5, hrep6⟩ := hbg
    have hbne : (lcmFold m hh ww).2 ≠ [] :=
      List.ne_nil_of_mem ((hrep4 rep).mpr (conn_refl m hh ww hrep1))
    refine ⟨fun y x => decide ((y, x) ∈ (lcmFold m hh ww).2), rep, ?_, hrep1, ?_, ?_, ?_⟩
    · simp only [largestComponentMask]
      rw [if_neg hbne]
    · intro q
      simp only [decide_eq_true_eq, Prod.mk.eta]
      exact hrep4 q
    · intro q hq
      exact hrep5 q ((hrep4 q).mpr hq)
    · intro s hs L B hLn hBn hLc hBc
      have hB : B.length = (lcmFold m hh ww).2.length :=
        nodup_enum_length hBn hrep3 (fun q => by rw [hBc q, hrep4 q])
      have hmain := hrep6 s (rmLt_end m hh ww s hs) hs L hLn hLc
      exact ⟨by omega, fun he => hmain.2 (by omega)⟩

theorem largest_component_mask_spec_witness :
    cellTrue (fun y x => decide (y = 0 ∧ (x = 0 ∨ x = 1 ∨ x = 3))) 1 5 ((0, 0) : Cell) ∧
    (∃ out rep,
      largestComponentMask (fun y x => decide (y = 0 ∧ (x = 0 ∨ x = 1 ∨ x = 3))) 1 5
          = some out ∧
      cellTrue (fun y x => decide (y = 0 ∧ (x = 0 ∨ x = 1 ∨ x = 3))) 1 5 rep ∧
      (∀ q : Cell, out q.1 q.2 = true ↔
        Conn (fun y x => decide (y = 0 ∧ (x = 0 ∨ x = 1 ∨ x = 3))) 1 5 rep q) ∧
      (∀ q : Cell,
        Conn (fun y x => decide (y = 0 ∧ (x = 0 ∨ x = 1 ∨ x = 3))) 1 5 rep q →
          rmLe rep q) ∧
      (∀ s : Cell, cellTrue (fun y x => decide (y = 0 ∧ (x = 0 ∨ x = 1 ∨ x = 3))) 1 5 s →
        ∀ L B : List Cell, L.Nodup → B.Nodup →
          (∀ r : Cell,
            r ∈ L ↔ Conn (fun y x => decide (y = 0 ∧ (x = 0 ∨ x = 1 ∨ x = 3))) 1 5 s r) →
          (∀ r : Cell,
            r ∈ B ↔ Conn (fun y x => decide (y = 0 ∧ (x = 0 ∨ x = 1 ∨ x = 3))) 1 5 rep r) →
          L.length ≤ B.length ∧ (L.length = B.length → ∀ r ∈ L, rmLe rep r))) :=
  ⟨by decide,
    (largest_component_mask_spec (fun y x => decide (y = 0 ∧ (x = 0 ∨ x = 1 ∨ x = 3))) 1 5).2
      ((0, 0) : Cell) (by decide)⟩

/-! ### Claim C9 -/

/-- Claim C9: `crop_to_face` is behaviourally identical to the version that
routes a crop box degenerating to zero area after clamping into the fallback
branch (`cropToFaceSpecGuard`, modelled from the spec), because on every
non-empty component the clamped box provably has positive height and width —
the degenerate case never arises, so no zero-extent output can escape. -/
theorem crop_to_face_degenerate_guard (im : ImageData) (ratio : ℚ) :
    cropToFace im ratio = cropToFaceSpecGuard im ratio := by
  unfold cropToFace cropToFaceSpecGuard
  rw [refineMaskE_eq]
  dsimp only
  cases hlc : largestComponentMask (refineMask (skinMask im) im.h im.w) im.h im.w with
  | none => rfl
  | some comp =>
    have hne := lcm_some_nonempty _ im.h im.w comp hlc
    obtain ⟨h1, h2, h3, h4, h5, h6, h7, h8⟩ := computeCropBox_wf comp im.h im.w hne
    dsimp only
    rw [if_neg (by omega)]

/-! ### Claim C7 -/

/-- Claim C7: for every crop extent and every non-negative feather ratio
(clamped down to 0.98 when larger), the alpha value at a pixel of normalised
radius `ρ` is 255 on the inner plateau `ρ ≤ r`, 0 outside the unit ellipse
`ρ ≥ 1`, and the 8-bit truncation of the linear ramp
`255·(1−ρ)/(1−r)` — which runs from 255 down to 0 — in between. -/
theorem feathered_alpha_spec (hc wc y x : ℕ) (ratio : ℝ) (h0 : 0 ≤ ratio) :
    (rho hc wc y x ≤ min ratio (98 / 100) → featheredAlpha hc wc ratio y x = 255) ∧
    (1 ≤ rho hc wc y x → featheredAlpha hc wc ratio y x = 0) ∧
    (min ratio (98 / 100) < rho hc wc y x → rho hc wc y x < 1 →
      featheredAlpha hc wc ratio y x
        = ⌊255 * (1 - rho hc wc y x) / (1 - min ratio (98 / 100))⌋) := by
  have hin : innerClip ratio = min ratio (98 / 100) := by
    unfold innerClip
    rw [max_eq_left h0]
  have hfa : featheredAlpha hc wc ratio y x
      = ⌊255 * clip01 (alphaVal (rho hc wc y x) (min ratio (98 / 100)))⌋ := by
    unfold featheredAlpha
    rw [hin]
  have hrle : min ratio (98 / 100 : ℝ) ≤ 98 / 100 := min_le_right _ _
  refine ⟨?_, ?_, ?_⟩
  · intro hle
    rw [hfa]
    unfold alphaVal
    rw [if_pos hle]
    norm_num [clip01]
  · intro hge
    rw [hfa]
    unfold alphaVal
    rw [if_neg (show ¬ rho hc wc y x ≤ min ratio (98 / 100) by push_neg; linarith),
      if_neg (not_lt.mpr hge)]
    norm_num [clip01]
  · intro hgt hlt
    rw [hfa]
    unfold alphaVal
    rw [if_neg (not_le.mpr hgt), if_pos hlt]
    have h1 : (0 : ℝ) < 1 - min ratio (98 / 100) := by linarith
    have h2 : 0 ≤ (1 - rho hc wc y x) / (1 - min ratio (98 / 100)) := by
      apply div_nonneg _ (le_of_lt h1)
      linarith
    have h3 : (1 - rho hc wc y x) / (1 - min ratio (98 / 100)) ≤ 1 := by
      rw [div_le_one h1]
      linarith
    have hclip : clip01 ((1 - rho hc wc y x) / (1 - min ratio (98 / 100)))
        = (1 - rho hc wc y x) / (1 - min ratio (98 / 100)) := by
      unfold clip01
      rw [max_eq_left h2, min_eq_left h3]
    rw [hclip, ← mul_div_assoc]

theorem feathered_alpha_spec_witness :
    (0 : ℝ) ≤ 1 / 2 ∧
    ((rho 2 2 0 0 ≤ min (1 / 2) (98 / 100) → featheredAlpha 2 2 (1 / 2) 0 0 = 255) ∧
     (1 ≤ rho 2 2 0 0 → featheredAlpha 2 2 (1 / 2) 0 0 = 0) ∧
     (min (1 / 2) (98 / 100) < rho 2 2 0 0 → rho 2 2 0 0 < 1 →
       featheredAlpha 2 2 (1 / 2) 0 0
         = ⌊255 * (1 - rho 2 2 0 0) / (1 - min (1 / 2) (98 / 100))⌋)) :=
  ⟨by norm_num, feathered_alpha_spec 2 2 0 0 (1 / 2) (by norm_num)⟩
